import Mathlib

set_option autoImplicit false

/-!
# Verification of the schema-anchored JSON parser

A shallow embedding of `src/lib/schema-json-parser.ts` (the schema-aware
JSON parser for LLM output) and proofs of the specification's claims about
it.

Modelling conventions:
* A JavaScript string is a sequence of UTF-16 code units; we embed it as
  `Str := List Nat` (each element one code unit).  Out-of-range indexing,
  which in JavaScript yields `undefined`, is modelled by `Option`
  (`getc` returns `none`).
* The mutable cursor `this.pos` is threaded explicitly: every operation
  takes the current position and returns the new one.
* `throw new ParseError(msg, pos)` is modelled with `Except PError`.
* The `while` loops of the source scan forward through the input; we embed
  them as structurally recursive functions over a fuel argument.  Every
  wrapper instantiates the fuel with `s.length`, which is always
  sufficient: each loop iteration advances the position by at least one,
  and each loop exits (or fails) once the position passes the end of the
  input, so `s.length` iterations are never exceeded.  The fuel-exhausted
  branch returns exactly what the loop's own end-of-input exit returns, so
  with sufficient fuel the definitions coincide with the source loops.

Character codes used throughout (UTF-16): 34 `"`, 92 `\`, 44 `,`,
58 `:`, 123 `{`, 125 `}`, 91 `[`, 93 `]`, 117 `u`, 110 `n`, 114 `r`,
116 `t`, 98 `b`, 102 `f`, 47 `/`.
-/

namespace SchemaJson

/-- A JavaScript string: a list of UTF-16 code units. -/
abbrev Str := List Nat

/-- Embed a Lean string literal as a `Str` (all literals used here are
ASCII/BMP, where a Lean `Char` is one UTF-16 code unit). -/
def str (x : String) : Str := x.toList.map Char.toNat

/-- JavaScript indexing `this.json[i]`; `undefined` out of range. -/
def getc (s : Str) (i : Nat) : Option Nat := s.get? i

/-- Slicing `this.json.slice(a, b)` (for the non-negative arguments used by the
source): the code units from index `a` (inclusive) to `b` (exclusive),
clamped to the string. -/
def slice (s : Str) (a b : Nat) : Str := (s.take b).drop a

/-- The JavaScript regular-expression class `\s` on one code unit
(whitespace, as tested by `/\s/.test(...)` in `skipWs`/`skipWsFrom`). -/
def isWs (c : Nat) : Bool :=
  [9, 10, 11, 12, 13, 32, 160, 5760, 8232, 8233, 8239, 8287, 12288, 65279].contains c
    || decide (8192 ≤ c ∧ c ≤ 8202)

/-- ParseError: the failure value thrown by the parser, carrying a
message and the integer input offset. -/
structure PError where
  message : String
  position : Nat
deriving DecidableEq, Repr

/-- FieldType: `'string' | 'string[]'`. -/
inductive FieldType where
  | string
  | stringList
deriving DecidableEq, Repr

/-- FieldDef: one declared schema field. -/
structure FieldDef where
  name : Str
  type : FieldType
deriving DecidableEq, Repr

/-- A parsed string or string-array value. -/
inductive JValue where
  | str (v : Str)
  | arr (vs : List Str)
deriving DecidableEq, Repr

/-- One parsed record: the field-name/value pairs in insertion order
(JavaScript object insertion order is the parse order). -/
abbrev RecV := List (Str × JValue)

namespace Parser

/-- The loop of `skipWs`/`skipWsFrom`: advance while in range and on
whitespace. -/
def skipWsAux (s : Str) : Nat → Nat → Nat
  | 0, j => j
  | fuel + 1, j =>
    match getc s j with
    | some c => if isWs c then skipWsAux s fuel (j + 1) else j
    | none => j

/-- Method `skipWs()` — skip whitespace at the committed cursor. -/
def skipWs (s : Str) (pos : Nat) : Nat := skipWsAux s s.length pos

/-- Method `skipWsFrom(j)` — skip whitespace from a lookahead index. -/
def skipWsFrom (s : Str) (j : Nat) : Nat := skipWsAux s s.length j

/-- The loop of `skipTo`: advance until the target character; reaching the
end of the input throws. -/
def skipToAux (s : Str) (c : Nat) : Nat → Nat → Except PError Nat
  | 0, pos => .error ⟨"Expected char not found", pos⟩
  | fuel + 1, pos =>
    match getc s pos with
    | some d => if d = c then .ok pos else skipToAux s c fuel (pos + 1)
    | none => .error ⟨"Expected char not found", pos⟩

/-- Method `skipTo(ch)` — returns the position of the found character (the source
leaves `this.pos` on it; callers `advance()` past it explicitly). -/
def skipTo (s : Str) (c : Nat) (pos : Nat) : Except PError Nat :=
  skipToAux s c s.length pos

/-- The loop of `String.prototype.indexOf(ch, from)` as used by
`expectKey`; `none` models the `-1` result. -/
def indexOfAux (s : Str) (c : Nat) : Nat → Nat → Option Nat
  | 0, _ => none
  | fuel + 1, j =>
    match getc s j with
    | some d => if d = c then some j else indexOfAux s c fuel (j + 1)
    | none => none

/-- JavaScript `this.json.indexOf(ch, from)`. -/
def indexOfFrom (s : Str) (c : Nat) (j : Nat) : Option Nat :=
  indexOfAux s c s.length j

/-- Method `expect(ch)` — check the current character without advancing. -/
def expect (s : Str) (c : Nat) (pos : Nat) : Except PError Unit :=
  if getc s pos = some c then .ok () else .error ⟨"Expected character", pos⟩

/-- Method `tryConsume(ch)` — consume the character if present. -/
def tryConsume (s : Str) (c : Nat) (pos : Nat) : Bool × Nat :=
  if getc s pos = some c then (true, pos + 1) else (false, pos)

/-- Method `isClosingQuote(nextField)` — the bounded lookahead that decides
whether the quote at `pos` terminates the current anchored string.  It
works on its own index `j` and returns only a `Bool`; the committed
cursor is untouched. -/
def isClosingQuote (s : Str) (nextField : Option Str) (pos : Nat) : Bool :=
  let j := skipWsFrom s (pos + 1)
  match nextField with
  | some nf =>
    -- Expect: , "nextField" :
    if getc s j ≠ some 44 then false
    else
      let j₁ := skipWsFrom s (j + 1)
      if getc s j₁ ≠ some 34 then false
      else if slice s (j₁ + 1) (j₁ + 1 + nf.length) ≠ nf then false
      else if getc s (j₁ + 1 + nf.length) ≠ some 34 then false
      else decide (getc s (skipWsFrom s (j₁ + 1 + nf.length + 1)) = some 58)
  | none =>
    -- Last field — expect } (possibly with trailing comma)
    if getc s j = some 125 then true
    else if getc s j = some 44 then
      decide (getc s (skipWsFrom s (j + 1)) = some 125)
    else if s.length ≤ j then true
    else decide (getc s j = some 93)

/-- The replacement callback of `unescape` applied by the global regex
`\\(u[0-9a-fA-F]{4}|.)`, scanning left to right.  A `u` escape whose four
hex digits are present decodes the code unit; a `u` not followed by four
hex digits is matched by the `.` alternative alone, so the callback hits
`case 'u'` with an empty/partial hex slice and `String.fromCharCode(NaN)`
yields the code unit 0.  The `.` class does not match a line terminator,
so a backslash before one is left in place, as is a trailing lone
backslash. -/
def hexVal (c : Nat) : Option Nat :=
  if 48 ≤ c ∧ c ≤ 57 then some (c - 48)
  else if 97 ≤ c ∧ c ≤ 102 then some (c - 87)
  else if 65 ≤ c ∧ c ≤ 70 then some (c - 55)
  else none

/-- Code units the regex `.` does not match (line terminators). -/
def isLineTerm (c : Nat) : Bool := c == 10 || c == 13 || c == 8232 || c == 8233

/-- Match of the alternative `u[0-9a-fA-F]{4}` right after `\u`: the four
hex digits and the remaining input, when they are present. -/
def uHex4 : Str → Option (Nat × Str)
  | a :: b :: e :: f :: rest =>
    match hexVal a, hexVal b, hexVal e, hexVal f with
    | some ha, some hb, some he, some hf =>
      some ((((ha * 16 + hb) * 16 + he) * 16 + hf), rest)
    | _, _, _, _ => none
  | _ => none

/-- The single-character escape decoding of the callback's `switch`
(every case except `u`; the `default` arm passes the character through). -/
def escChar (d : Nat) : Nat :=
  if d = 34 then 34
  else if d = 92 then 92
  else if d = 47 then 47
  else if d = 110 then 10
  else if d = 114 then 13
  else if d = 116 then 9
  else if d = 98 then 8
  else if d = 102 then 12
  else d

/-- The left-to-right scan of `unescape`'s global regex replacement; the
fuel decreases by one per step while at least one code unit is consumed,
so `raw.length` fuel always suffices (at fuel 0 the remainder is empty). -/
def unescapeAux : Nat → Str → Str
  | 0, r => r
  | _, [] => []
  | fuel + 1, c :: rest =>
    if c = 92 then
      match rest with
      | [] => [92]
      | d :: rest₂ =>
        if d = 117 then
          match uHex4 rest₂ with
          | some (n, rest₃) => n :: unescapeAux fuel rest₃
          | none => 0 :: unescapeAux fuel rest₂
        else if isLineTerm d then 92 :: d :: unescapeAux fuel rest₂
        else escChar d :: unescapeAux fuel rest₂
    else c :: unescapeAux fuel rest

/-- Method `unescape(raw)` — decode the escape sequences of a raw segment. -/
def unescape (raw : Str) : Str := unescapeAux raw.length raw

/-- The scan loop of `readAnchoredString`.  `start` is the position right
after the opening quote (where the string's content starts), `parts` the
already-joined accumulated parts, `segStart` the start of the current
segment. -/
def readAnchoredLoop (s : Str) (nextField : Option Str) (start : Nat) :
    Nat → Str → Nat → Nat → Except PError (Str × Nat)
  | 0, _, _, _ => .error ⟨"Unterminated string", start⟩
  | fuel + 1, parts, segStart, pos =>
    match getc s pos with
    | some ch =>
      if ch = 92 then
        -- Escape sequence — consume both chars
        readAnchoredLoop s nextField start fuel parts segStart (pos + 2)
      else if ch = 34 then
        if isClosingQuote s nextField pos then
          .ok (unescape (parts ++ slice s segStart pos), pos + 1)
        else
          -- Embedded quote — replace it with escaped version
          readAnchoredLoop s nextField start fuel
            (parts ++ slice s segStart pos ++ [92, 34]) (pos + 1) (pos + 1)
      else readAnchoredLoop s nextField start fuel parts segStart (pos + 1)
    | none => .error ⟨"Unterminated string", start⟩

/-- Method `readAnchoredString(nextField)`. -/
def readAnchoredString (s : Str) (nextField : Option Str) (pos : Nat) :
    Except PError (Str × Nat) :=
  match expect s 34 pos with
  | .error e => .error e
  | .ok _ => readAnchoredLoop s nextField (pos + 1) s.length [] (pos + 1) (pos + 1)

/-- The scan loop of `readSimpleString`. -/
def readSimpleLoop (s : Str) (start : Nat) : Nat → Nat → Except PError (Str × Nat)
  | 0, _ => .error ⟨"Unterminated string", start⟩
  | fuel + 1, pos =>
    match getc s pos with
    | some ch =>
      if ch = 92 then readSimpleLoop s start fuel (pos + 2)
      else if ch = 34 then .ok (unescape (slice s start pos), pos + 1)
      else readSimpleLoop s start fuel (pos + 1)
    | none => .error ⟨"Unterminated string", start⟩

/-- Method `readSimpleString()` — a regular JSON string (no embedded-quote
concerns). -/
def readSimpleString (s : Str) (pos : Nat) : Except PError (Str × Nat) :=
  match expect s 34 pos with
  | .error e => .error e
  | .ok _ => readSimpleLoop s (pos + 1) s.length (pos + 1)

/-- The exit path of `readStringArray`'s loop: `expect(']'); advance()`. -/
def readArrayClose (s : Str) (values : List Str) (pos : Nat) :
    Except PError (List Str × Nat) :=
  match expect s 93 pos with
  | .error e => .error e
  | .ok _ => .ok (values, pos + 1)

/-- The element loop of `readStringArray`. -/
def readStringArrayLoop (s : Str) : Nat → List Str → Nat → Except PError (List Str × Nat)
  | 0, values, pos => readArrayClose s values pos
  | fuel + 1, values, pos =>
    match getc s pos with
    | some ch =>
      if ch = 93 then readArrayClose s values pos
      else
        match readSimpleString s pos with
        | .error e => .error e
        | .ok (v, p₁) =>
          let p₂ := skipWs s p₁
          let p₃ := (tryConsume s 44 p₂).2
          readStringArrayLoop s fuel (values ++ [v]) (skipWs s p₃)
    | none => readArrayClose s values pos

/-- Method `readStringArray()`. -/
def readStringArray (s : Str) (pos : Nat) : Except PError (List Str × Nat) :=
  match expect s 91 pos with
  | .error e => .error e
  | .ok _ => readStringArrayLoop s s.length [] (skipWs s (pos + 1))

/-- Method `expectKey(name)` — skip to the next `"`, read the key up to the
closing `"` via `indexOf`, compare it with the expected name, then consume
`:` and trailing whitespace.  Returns the new committed position. -/
def expectKey (s : Str) (name : Str) (pos : Nat) : Except PError Nat :=
  match skipTo s 34 pos with
  | .error e => .error e
  | .ok q =>
    let keyStart := q + 1
    match indexOfFrom s 34 keyStart with
    | none => .error ⟨"Unterminated key", keyStart⟩
    | some keyEnd =>
      if slice s keyStart keyEnd = name then
        let p₁ := skipWs s (keyEnd + 1)
        match expect s 58 p₁ with
        | .error e => .error e
        | .ok _ => .ok (skipWs s (p₁ + 1))
      else .error ⟨"Expected key", keyStart⟩

/-- The field loop of `parseObject`: for each field, `expectKey`,
`skipWs`, read the value with the next field's name as anchor (or read a
string array), then `skipWs`, `tryConsume(',')`, `skipWs`. -/
def parseFields (s : Str) : List FieldDef → RecV → Nat → Except PError (RecV × Nat)
  | [], item, pos => .ok (item, pos)
  | fd :: rest, item, pos =>
    match expectKey s fd.name pos with
    | .error e => .error e
    | .ok p₁ =>
      let p₂ := skipWs s p₁
      let rv : Except PError (JValue × Nat) :=
        match fd.type with
        | .string =>
          match readAnchoredString s
              (match rest with | fd₂ :: _ => some fd₂.name | [] => none) p₂ with
          | .error e => .error e
          | .ok (v, p) => .ok (.str v, p)
        | .stringList =>
          match readStringArray s p₂ with
          | .error e => .error e
          | .ok (vs, p) => .ok (.arr vs, p)
      match rv with
      | .error e => .error e
      | .ok (v, p₃) =>
        let p₄ := skipWs s p₃
        let p₅ := (tryConsume s 44 p₄).2
        parseFields s rest (item ++ [(fd.name, v)]) (skipWs s p₅)

/-- Method `parseObject()` — skip to and past `{`, parse the schema's fields,
then skip to and past `}`. -/
def parseObject (s : Str) (fields : List FieldDef) (pos : Nat) :
    Except PError (RecV × Nat) :=
  match skipTo s 123 pos with
  | .error e => .error e
  | .ok q =>
    match parseFields s fields [] (skipWs s (q + 1)) with
    | .error e => .error e
    | .ok (item, p₁) =>
      match skipTo s 125 p₁ with
      | .error e => .error e
      | .ok r => .ok (item, r + 1)

/-- The record loop of `parse`: while not at the end and not at `]`,
parse one object then `skipWs`, `tryConsume(',')`, `skipWs`. -/
def parseLoop (s : Str) (fields : List FieldDef) :
    Nat → List RecV → Nat → Except PError (List RecV × Nat)
  | 0, items, pos => .ok (items, pos)
  | fuel + 1, items, pos =>
    match getc s pos with
    | some ch =>
      if ch = 93 then .ok (items, pos)
      else
        match parseObject s fields pos with
        | .error e => .error e
        | .ok (item, p₁) =>
          let p₂ := skipWs s p₁
          let p₃ := (tryConsume s 44 p₂).2
          parseLoop s fields fuel (items ++ [item]) (skipWs s p₃)
    | none => .ok (items, pos)

/-- Method `parse()` — navigate to the items array (`{ "items": [ ... ]`) and
run the record loop; the loop's final position and anything after it are
discarded. -/
def parse (s : Str) (fields : List FieldDef) : Except PError (List RecV) :=
  match skipTo s 123 0 with
  | .error e => .error e
  | .ok q =>
    match expectKey s (str "items") (q + 1) with
    | .error e => .error e
    | .ok p₁ =>
      match skipTo s 91 p₁ with
      | .error e => .error e
      | .ok r =>
        match parseLoop s fields s.length [] (skipWs s (r + 1)) with
        | .error e => .error e
        | .ok (items, _) => .ok items

end Parser

/-- Function `parseItemsArray(json, fields)` — the exported entry point. -/
def parseItemsArray (s : Str) (fields : List FieldDef) : Except PError (List RecV) :=
  Parser.parse s fields

end SchemaJson

deriving instance DecidableEq for Except

namespace SchemaJson

/-! ## Specification-side vocabulary

The following definitions do not model source code; they are the
spec-side vocabulary the claims are stated in: segments of the input at a
position, whitespace runs, and — for the refinement claim — a rendering
relation that characterises exactly the texts a standard strict JSON
parser (restricted to the `{"items": [...]}` envelope shape of the spec)
accepts, together with the records it decodes from them.
-/

/-- The text `t` occurs in `s` starting at index `i`. -/
def SegAt (s : Str) (i : Nat) (t : Str) : Prop := ∃ r, s.drop i = t ++ r

/-- A run of JavaScript whitespace. -/
def wsRun (w : Str) : Prop := ∀ c ∈ w, isWs c = true

/-- A code unit a strict JSON string may contain literally: not the
quote, not the backslash, not a control character. -/
def normalChar (c : Nat) : Prop := c ≠ 34 ∧ c ≠ 92 ∧ 32 ≤ c

/-- Strict JSON single-character escapes and their decodings. -/
def escDecode (d : Nat) : Option Nat :=
  if d = 34 then some 34
  else if d = 92 then some 92
  else if d = 47 then some 47
  else if d = 110 then some 10
  else if d = 114 then some 13
  else if d = 116 then some 9
  else if d = 98 then some 8
  else if d = 102 then some 12
  else none

/-- Modelled from the spec: the body of a strict JSON string literal —
the raw code units between the two delimiting quotes — together with the
decoded string value a standard strict JSON parser produces from it. -/
inductive StrBody : Str → Str → Prop
  | nil : StrBody [] []
  | norm (c : Nat) (raw dec : Str) : normalChar c → StrBody raw dec →
      StrBody (c :: raw) (c :: dec)
  | esc (d v : Nat) (raw dec : Str) : escDecode d = some v → StrBody raw dec →
      StrBody (92 :: d :: raw) (v :: dec)
  | uesc (a b e f ha hb he hf : Nat) (raw dec : Str) :
      Parser.hexVal a = some ha → Parser.hexVal b = some hb →
      Parser.hexVal e = some he → Parser.hexVal f = some hf →
      StrBody raw dec →
      StrBody (92 :: 117 :: a :: b :: e :: f :: raw)
        ((((ha * 16 + hb) * 16 + he) * 16 + hf) :: dec)

/-- The scanning shape of a raw string body: a sequence of either escape
pairs (a backslash plus any following unit) or single units that are
neither a quote nor a backslash.  Every `StrBody` has this shape; it is
what the source's scan loops walk over. -/
inductive RawScan : Str → Prop
  | nil : RawScan []
  | esc (d : Nat) (raw : Str) : RawScan raw → RawScan (92 :: d :: raw)
  | plain (c : Nat) (raw : Str) : c ≠ 34 → c ≠ 92 → RawScan raw → RawScan (c :: raw)

/-- Modelled from the spec: the elements of a strict JSON string array
from the start of its first element up to and including the closing `]`,
with the decoded element values. -/
inductive Elems : Str → List Str → Prop
  | last (raw dec : Str) (w : Str) : StrBody raw dec → wsRun w →
      Elems ([34] ++ raw ++ [34] ++ w ++ [93]) [dec]
  | cons (raw dec : Str) (w₁ w₂ t : Str) (vs : List Str) :
      StrBody raw dec → wsRun w₁ → wsRun w₂ → Elems t vs →
      Elems ([34] ++ raw ++ [34] ++ w₁ ++ [44] ++ w₂ ++ t) (dec :: vs)

/-- Modelled from the spec: a strict JSON array of strings (the whole
literal, `[` through `]`) and its decoded value. -/
inductive ArrLit : Str → List Str → Prop
  | empty (w : Str) : wsRun w → ArrLit ([91] ++ w ++ [93]) []
  | elems (w t : Str) (vs : List Str) : wsRun w → Elems t vs →
      ArrLit ([91] ++ w ++ t) vs

/-- Modelled from the spec: a strict JSON value of the kind a schema
field declares, with the decoded `JValue`. -/
def ValR (fd : FieldDef) (t : Str) (v : JValue) : Prop :=
  match fd.type with
  | .string => ∃ raw dec, StrBody raw dec ∧ t = [34] ++ raw ++ [34] ∧ v = .str dec
  | .stringList => ∃ vs, ArrLit t vs ∧ v = .arr vs

/-- Modelled from the spec: the interior of a strict JSON record, from
the first key's opening quote up to and including the closing `}`, with
the fields in exactly the schema's declared order. -/
inductive FieldSeq : List FieldDef → Str → RecV → Prop
  | last (fd : FieldDef) (w₁ w₂ w₃ vt : Str) (v : JValue) :
      wsRun w₁ → wsRun w₂ → wsRun w₃ → ValR fd vt v →
      FieldSeq [fd]
        ([34] ++ fd.name ++ [34] ++ w₁ ++ [58] ++ w₂ ++ vt ++ w₃ ++ [125])
        [(fd.name, v)]
  | cons (fd fd₂ : FieldDef) (rest : List FieldDef) (w₁ w₂ w₃ w₄ vt t : Str)
      (v : JValue) (r : RecV) :
      wsRun w₁ → wsRun w₂ → wsRun w₃ → wsRun w₄ →
      ValR fd vt v → FieldSeq (fd₂ :: rest) t r →
      FieldSeq (fd :: fd₂ :: rest)
        ([34] ++ fd.name ++ [34] ++ w₁ ++ [58] ++ w₂ ++ vt ++ w₃ ++ [44] ++ w₄ ++ t)
        ((fd.name, v) :: r)

/-- Modelled from the spec: one strict JSON record conforming to the
schema (a `{`, optional whitespace, then the fields). -/
def RecR (fields : List FieldDef) (t : Str) (rec : RecV) : Prop :=
  ∃ w ft, wsRun w ∧ FieldSeq fields ft rec ∧ t = [123] ++ w ++ ft

/-- Modelled from the spec: the contents of the strict items array from
the start of its first record (or its closing bracket, when empty) up to
and including the closing `]`. -/
inductive RecSeq : List FieldDef → Str → List RecV → Prop
  | nilR (fields : List FieldDef) : RecSeq fields [93] []
  | lastR (fields : List FieldDef) (t w : Str) (rec : RecV) :
      RecR fields t rec → wsRun w → RecSeq fields (t ++ w ++ [93]) [rec]
  | consR (fields : List FieldDef) (t w₁ w₂ t₂ : Str) (rec rec₂ : RecV)
      (rest : List RecV) :
      RecR fields t rec → wsRun w₁ → wsRun w₂ → RecSeq fields t₂ (rec₂ :: rest) →
      RecSeq fields (t ++ w₁ ++ [44] ++ w₂ ++ t₂) (rec :: rec₂ :: rest)

/-- Modelled from the spec: `s` is a text a standard strict JSON parser
accepts as the `{"items": [...]}` envelope whose records conform to the
schema in declared field order, decoding to `recs`.  Since strict JSON is
an unambiguous grammar, "a strict parser returns `recs` on `s`" is
exactly membership in this rendering relation. -/
def StrictItems (fields : List FieldDef) (s : Str) (recs : List RecV) : Prop :=
  ∃ w₁ w₂ w₃ w₄ w₅ wA wB body,
    wsRun w₁ ∧ wsRun w₂ ∧ wsRun w₃ ∧ wsRun w₄ ∧ wsRun w₅ ∧ wsRun wA ∧ wsRun wB ∧
    RecSeq fields body recs ∧
    s = w₁ ++ [123] ++ w₂ ++ ([34] ++ str "items" ++ [34]) ++ w₃ ++ [58] ++ w₄
        ++ [91] ++ w₅ ++ body ++ wA ++ [125] ++ wB

/-- Modelled from the spec: a strict record sequence that is cut off
right after the final record's closing `}` — no `]`, no envelope `}`. -/
inductive TruncSeq : List FieldDef → Str → List RecV → Prop
  | one (fields : List FieldDef) (t : Str) (rec : RecV) :
      RecR fields t rec → TruncSeq fields t [rec]
  | cons (fields : List FieldDef) (t w₁ w₂ t₂ : Str) (rec : RecV) (rest : List RecV) :
      RecR fields t rec → wsRun w₁ → wsRun w₂ → TruncSeq fields t₂ rest →
      TruncSeq fields (t ++ w₁ ++ [44] ++ w₂ ++ t₂) (rec :: rest)

/-- A schema whose field names are made of plain string characters (what
the spec's identifier names are); in particular a name contains no quote
and no backslash. -/
def schemaOK (fields : List FieldDef) : Prop :=
  ∀ fd ∈ fields, ∀ c ∈ fd.name, normalChar c

/-- The hypothesis of the refinement claim: no decoded field value of any
record contains the quote code unit 34. -/
def NoQuoteValues (recs : List RecV) : Prop :=
  ∀ rec ∈ recs, ∀ p ∈ rec,
    match p.2 with
    | JValue.str v => 34 ∉ v
    | JValue.arr vs => ∀ x ∈ vs, 34 ∉ x

/-- The claim C1 lookahead pattern after a candidate quote at `pos`, when
a next field is expected: ignoring whitespace between tokens — comma,
opening quote, the next field's exact name, closing quote, colon. -/
def anchorNext (s : Str) (nf : Str) (pos : Nat) : Prop :=
  ∃ a b c, wsRun a ∧ wsRun b ∧ wsRun c ∧
    SegAt s (pos + 1) (a ++ [44] ++ b ++ [34] ++ nf ++ [34] ++ c ++ [58])

/-- The claim C3 lookahead pattern after a candidate quote at `pos` for
the last schema field: ignoring whitespace, either the record-closing
`}`, or a comma and then `}`, or the end of the input, or the
array-closing `]`. -/
def anchorLast (s : Str) (pos : Nat) : Prop :=
  (∃ a, wsRun a ∧ SegAt s (pos + 1) (a ++ [125])) ∨
  (∃ a b, wsRun a ∧ wsRun b ∧ SegAt s (pos + 1) (a ++ [44] ++ b ++ [125])) ∨
  wsRun (s.drop (pos + 1)) ∨
  (∃ a, wsRun a ∧ SegAt s (pos + 1) (a ++ [93]))

end SchemaJson

namespace SchemaJson

open Parser

/-! ## Basic facts about the input model -/

theorem getc_eq_none {s : Str} {i : Nat} : getc s i = none ↔ s.length ≤ i :=
  List.get?_eq_none

theorem getc_some_lt {s : Str} {i c : Nat} (h : getc s i = some c) : i < s.length := by
  obtain ⟨hlt, -⟩ := List.get?_eq_some.1 h
  exact hlt

theorem segAt_nil (s : Str) (i : Nat) : SegAt s i [] := ⟨s.drop i, rfl⟩

theorem segAt_cons {s : Str} {i c : Nat} {t : Str} :
    SegAt s i (c :: t) ↔ getc s i = some c ∧ SegAt s (i + 1) t := by
  constructor
  · rintro ⟨r, hr⟩
    have h0 : s.get? i = some c := by
      have h := (List.get?_drop s i 0).symm
      rw [hr] at h
      simpa using h
    refine ⟨h0, ⟨r, ?_⟩⟩
    have h1 : s.drop (i + 1) = (s.drop i).drop 1 := by
      rw [List.drop_drop]
    rw [h1, hr]
    rfl
  · rintro ⟨hc, r, hr⟩
    obtain ⟨hlt, hget⟩ := List.get?_eq_some.1 hc
    refine ⟨r, ?_⟩
    rw [List.drop_eq_get_cons hlt, hget, hr]
    rfl

theorem segAt_getc {s : Str} {i c : Nat} {t : Str} (h : SegAt s i (c :: t)) :
    getc s i = some c := (segAt_cons.1 h).1

theorem segAt_append {s : Str} {i : Nat} {a b : Str} :
    SegAt s i (a ++ b) ↔ SegAt s i a ∧ SegAt s (i + a.length) b := by
  constructor
  · rintro ⟨r, hr⟩
    refine ⟨⟨b ++ r, by rw [hr, List.append_assoc]⟩, ⟨r, ?_⟩⟩
    have h : s.drop (i + a.length) = (s.drop i).drop a.length := by
      rw [List.drop_drop]
    rw [h, hr, List.append_assoc, List.drop_left]
  · rintro ⟨⟨r₁, h₁⟩, ⟨r₂, h₂⟩⟩
    have h3 : (s.drop i).drop a.length = s.drop (i + a.length) := by
      rw [List.drop_drop]
    rw [h₁, List.drop_left] at h3
    refine ⟨r₂, ?_⟩
    rw [h₁, h3, h₂, List.append_assoc]

theorem segAt_length {s : Str} {i : Nat} {t : Str} (h : SegAt s i t) (ht : t ≠ []) :
    i + t.length ≤ s.length := by
  obtain ⟨r, hr⟩ := h
  have hlen : s.length - i = t.length + r.length := by
    have h2 := congrArg List.length hr
    simpa [List.length_drop] using h2
  have h1 : 1 ≤ t.length := by
    cases t with
    | nil => exact absurd rfl ht
    | cons _ _ => simp
  omega

theorem slice_eq_take_drop (s : Str) (i n : Nat) :
    slice s i (i + n) = (s.drop i).take n := by
  rw [slice, List.drop_take]
  congr 1
  omega

theorem slice_of_segAt {s : Str} {i : Nat} {t : Str} (h : SegAt s i t) :
    slice s i (i + t.length) = t := by
  obtain ⟨r, hr⟩ := h
  rw [slice_eq_take_drop, hr, List.take_left]

theorem segAt_of_slice {s : Str} {i : Nat} {t : Str}
    (h : slice s i (i + t.length) = t) : SegAt s i t := by
  refine ⟨(s.drop i).drop t.length, ?_⟩
  conv_lhs => rw [← List.take_append_drop t.length (s.drop i)]
  rw [← slice_eq_take_drop, h]

/-! ## Whitespace facts -/

theorem wsRun_nil : wsRun [] := by
  intro c hc
  simp at hc

theorem wsRun_cons {c : Nat} {w : Str} :
    wsRun (c :: w) ↔ isWs c = true ∧ wsRun w := by
  constructor
  · intro h
    exact ⟨h c (by simp), fun d hd => h d (by simp [hd])⟩
  · rintro ⟨h1, h2⟩ d hd
    rcases List.mem_cons.1 hd with h | h
    · rw [h]; exact h1
    · exact h2 d h

theorem isWs_ne {c : Nat} (h : isWs c = true) :
    c ≠ 34 ∧ c ≠ 44 ∧ c ≠ 58 ∧ c ≠ 91 ∧ c ≠ 93 ∧ c ≠ 123 ∧ c ≠ 125 ∧ c ≠ 92 := by
  simp only [isWs, Bool.or_eq_true, List.contains_eq_any_beq, List.any_eq_true,
    List.mem_cons, beq_iff_eq, decide_eq_true_eq] at h
  rcases h with ⟨a, ha, rfl⟩ | h
  · simp only [List.mem_cons, List.not_mem_nil, or_false] at ha
    omega
  · omega

/-! ## The whitespace-skipping loop -/

theorem skipWsAux_le (s : Str) : ∀ fuel j, j ≤ skipWsAux s fuel j := by
  intro fuel
  induction fuel with
  | zero => intro j; simp [skipWsAux]
  | succ n ih =>
    intro j
    simp only [skipWsAux]
    cases hg : getc s j with
    | none => simp
    | some c =>
      by_cases hw : isWs c
      · simp only [hw, if_true]
        exact le_trans (by omega) (ih (j + 1))
      · simp [hw]

theorem skipWsAux_run {s : Str} {w : Str} (hw : wsRun w) :
    ∀ {fuel j : Nat}, SegAt s j w → s.length ≤ j + fuel →
      (∀ c, getc s (j + w.length) = some c → isWs c = false) →
      skipWsAux s fuel j = j + w.length := by
  induction w with
  | nil =>
    intro fuel j _ _ hnext
    have hj : skipWsAux s fuel j = j := by
      cases fuel with
      | zero => simp [skipWsAux]
      | succ n =>
        simp only [skipWsAux]
        cases hg : getc s j with
        | none => simp
        | some c =>
          have : isWs c = false := hnext c (by simpa using hg)
          simp [this]
    simpa using hj
  | cons c w ih =>
    intro fuel j hseg hfuel hnext
    obtain ⟨hc, hrest⟩ := segAt_cons.1 hseg
    have hlt : j < s.length := getc_some_lt hc
    obtain ⟨hwc, hww⟩ := wsRun_cons.1 hw
    cases fuel with
    | zero => omega
    | succ n =>
      simp only [skipWsAux, hc, hwc, if_true]
      have hidx : j + (c :: w).length = j + 1 + w.length := by
        simp only [List.length_cons]
        omega
      rw [ih hww hrest (by omega) (by rw [← hidx]; exact hnext), ← hidx]

theorem skipWsAux_decomp {s : Str} : ∀ {fuel j : Nat}, s.length ≤ j + fuel →
    ∃ w, wsRun w ∧ SegAt s j w ∧ skipWsAux s fuel j = j + w.length ∧
      (∀ c, getc s (j + w.length) = some c → isWs c = false) := by
  intro fuel
  induction fuel with
  | zero =>
    intro j hle
    refine ⟨[], wsRun_nil, segAt_nil s j, by simp [skipWsAux], fun c hc => ?_⟩
    have := getc_some_lt hc
    omega
  | succ n ih =>
    intro j hle
    cases hg : getc s j with
    | none =>
      refine ⟨[], wsRun_nil, segAt_nil s j, by simp [skipWsAux, hg], fun c hc => ?_⟩
      simp only [List.length_nil, Nat.add_zero] at hc
      rw [hg] at hc
      cases hc
    | some c =>
      by_cases hw : isWs c
      · obtain ⟨w, h1, h2, h3, h4⟩ := ih (j := j + 1) (by omega)
        have hidx : j + (c :: w).length = j + 1 + w.length := by
          simp only [List.length_cons]
          omega
        refine ⟨c :: w, wsRun_cons.2 ⟨hw, h1⟩, segAt_cons.2 ⟨hg, h2⟩, ?_, ?_⟩
        · simp only [skipWsAux, hg, hw, if_true]
          rw [h3, hidx]
        · rw [hidx]
          exact h4
      · refine ⟨[], wsRun_nil, segAt_nil s j, by simp [skipWsAux, hg, hw], fun d hd => ?_⟩
        simp only [List.length_nil, Nat.add_zero] at hd
        rw [hg] at hd
        cases hd
        simpa using hw

theorem skipWs_run {s w : Str} {j : Nat} (hw : wsRun w) (hseg : SegAt s j w)
    (hnext : ∀ c, getc s (j + w.length) = some c → isWs c = false) :
    skipWs s j = j + w.length :=
  skipWsAux_run hw hseg (Nat.le_add_left _ _) hnext

theorem skipWsFrom_run {s w : Str} {j : Nat} (hw : wsRun w) (hseg : SegAt s j w)
    (hnext : ∀ c, getc s (j + w.length) = some c → isWs c = false) :
    skipWsFrom s j = j + w.length :=
  skipWsAux_run hw hseg (Nat.le_add_left _ _) hnext

theorem skipWsFrom_decomp (s : Str) (j : Nat) :
    ∃ w, wsRun w ∧ SegAt s j w ∧ skipWsFrom s j = j + w.length ∧
      (∀ c, getc s (j + w.length) = some c → isWs c = false) :=
  skipWsAux_decomp (Nat.le_add_left _ _)

theorem skipWs_eq_self {s : Str} {j : Nat}
    (h : ∀ c, getc s j = some c → isWs c = false) : skipWs s j = j := by
  have := skipWs_run (w := []) wsRun_nil (segAt_nil s j)
  simp only [List.length_nil, Nat.add_zero] at this
  exact this h

end SchemaJson

namespace SchemaJson

open Parser

/-! ## The skip-to and index-of loops -/

theorem skipToAux_run {s : Str} {tgt : Nat} {w : Str} (hw : ∀ c ∈ w, c ≠ tgt) :
    ∀ {fuel j : Nat}, SegAt s j (w ++ [tgt]) → s.length ≤ j + fuel →
      skipToAux s tgt fuel j = .ok (j + w.length) := by
  induction w with
  | nil =>
    intro fuel j hseg hfuel
    have hc : getc s j = some tgt := segAt_getc (by simpa using hseg)
    have hlt := getc_some_lt hc
    cases fuel with
    | zero => omega
    | succ n => simp [skipToAux, hc]
  | cons c w ih =>
    intro fuel j hseg hfuel
    have hc : getc s j = some c := segAt_getc (by simpa using hseg)
    have hlt := getc_some_lt hc
    have hcne : c ≠ tgt := hw c (by simp)
    cases fuel with
    | zero => omega
    | succ n =>
      simp only [skipToAux, hc, hcne, if_false]
      have hrest : SegAt s (j + 1) (w ++ [tgt]) := by
        have := segAt_cons.1 (by simpa using hseg)
        exact this.2
      have hidx : j + (c :: w).length = j + 1 + w.length := by
        simp only [List.length_cons]
        omega
      rw [ih (fun d hd => hw d (by simp [hd])) hrest (by omega), hidx]

theorem skipTo_run {s : Str} {tgt : Nat} {w : Str} {j : Nat} (hw : ∀ c ∈ w, c ≠ tgt)
    (hseg : SegAt s j (w ++ [tgt])) : skipTo s tgt j = .ok (j + w.length) :=
  skipToAux_run hw hseg (Nat.le_add_left _ _)

theorem skipTo_here {s : Str} {tgt : Nat} {j : Nat} (h : getc s j = some tgt) :
    skipTo s tgt j = .ok j := by
  have hseg : SegAt s j ([] ++ [tgt]) := by
    simpa using segAt_cons.2 ⟨h, segAt_nil s (j + 1)⟩
  simpa using skipTo_run (by simp) hseg

theorem skipToAux_ok {s : Str} {tgt : Nat} :
    ∀ {fuel j r : Nat}, skipToAux s tgt fuel j = .ok r →
      j ≤ r ∧ getc s r = some tgt := by
  intro fuel
  induction fuel with
  | zero => intro j r h; cases h
  | succ n ih =>
    intro j r h
    cases hg : getc s j with
    | none =>
      simp only [skipToAux, hg] at h
      cases h
    | some d =>
      simp only [skipToAux, hg] at h
      by_cases hd : d = tgt
      · rw [if_pos hd] at h
        cases h
        subst hd
        exact ⟨Nat.le_refl _, hg⟩
      · rw [if_neg hd] at h
        obtain ⟨h1, h2⟩ := ih h
        exact ⟨by omega, h2⟩

theorem indexOfAux_run {s : Str} {tgt : Nat} {w : Str} (hw : ∀ c ∈ w, c ≠ tgt) :
    ∀ {fuel j : Nat}, SegAt s j (w ++ [tgt]) → s.length ≤ j + fuel →
      indexOfAux s tgt fuel j = some (j + w.length) := by
  induction w with
  | nil =>
    intro fuel j hseg hfuel
    have hc : getc s j = some tgt := segAt_getc (by simpa using hseg)
    have hlt := getc_some_lt hc
    cases fuel with
    | zero => omega
    | succ n => simp [indexOfAux, hc]
  | cons c w ih =>
    intro fuel j hseg hfuel
    have hc : getc s j = some c := segAt_getc (by simpa using hseg)
    have hlt := getc_some_lt hc
    have hcne : c ≠ tgt := hw c (by simp)
    cases fuel with
    | zero => omega
    | succ n =>
      simp only [indexOfAux, hc, hcne, if_false]
      have hrest : SegAt s (j + 1) (w ++ [tgt]) := (segAt_cons.1 (by simpa using hseg)).2
      have hidx : j + (c :: w).length = j + 1 + w.length := by
        simp only [List.length_cons]
        omega
      rw [ih (fun d hd => hw d (by simp [hd])) hrest (by omega), hidx]

theorem indexOfFrom_run {s : Str} {tgt : Nat} {w : Str} {j : Nat} (hw : ∀ c ∈ w, c ≠ tgt)
    (hseg : SegAt s j (w ++ [tgt])) : indexOfFrom s tgt j = some (j + w.length) :=
  indexOfAux_run hw hseg (Nat.le_add_left _ _)

theorem indexOfAux_some {s : Str} {tgt : Nat} :
    ∀ {fuel j r : Nat}, indexOfAux s tgt fuel j = some r → j ≤ r := by
  intro fuel
  induction fuel with
  | zero => intro j r h; cases h
  | succ n ih =>
    intro j r h
    cases hg : getc s j with
    | none =>
      simp only [indexOfAux, hg] at h
      cases h
    | some d =>
      simp only [indexOfAux, hg] at h
      by_cases hd : d = tgt
      · rw [if_pos hd] at h
        cases h
        exact Nat.le_refl _
      · rw [if_neg hd] at h
        have := ih h
        omega

/-! ## Expect and tryConsume -/

theorem expect_ok {s : Str} {c pos : Nat} (h : getc s pos = some c) :
    expect s c pos = .ok () := by
  simp [expect, h]

theorem tryConsume_hit {s : Str} {c pos : Nat} (h : getc s pos = some c) :
    (tryConsume s c pos).2 = pos + 1 := by
  simp [tryConsume, h]

theorem tryConsume_miss {s : Str} {c pos : Nat} (h : getc s pos ≠ some c) :
    (tryConsume s c pos).2 = pos := by
  simp [tryConsume, h]

theorem tryConsume_le (s : Str) (c pos : Nat) : pos ≤ (tryConsume s c pos).2 := by
  by_cases h : getc s pos = some c
  · simp [tryConsume, h]
  · simp [tryConsume, h]

/-! ## The unescape codec -/

theorem unescapeAux_nilr : ∀ fuel, unescapeAux fuel [] = [] := by
  intro fuel
  cases fuel with
  | zero => rfl
  | succ n => rfl

theorem uHex4_length : ∀ {r : Str} {n : Nat} {r' : Str},
    uHex4 r = some (n, r') → r.length = r'.length + 4 := by
  intro r n r' h
  unfold uHex4 at h
  split at h
  · split at h
    all_goals cases h
    all_goals simp only [List.length_cons]
  · cases h

theorem unescapeAux_congr : ∀ (f₁ f₂ : Nat) (r : Str), r.length ≤ f₁ → r.length ≤ f₂ →
    unescapeAux f₁ r = unescapeAux f₂ r := by
  intro f₁
  induction f₁ with
  | zero =>
    intro f₂ r h1 h2
    have hr : r = [] := List.length_eq_zero.1 (by omega)
    subst hr
    rw [unescapeAux_nilr, unescapeAux_nilr]
  | succ n ih =>
    intro f₂ r h1 h2
    cases r with
    | nil => rw [unescapeAux_nilr, unescapeAux_nilr]
    | cons c rest =>
      simp only [List.length_cons] at h1 h2
      cases f₂ with
      | zero => omega
      | succ m =>
        rw [unescapeAux.eq_def, unescapeAux.eq_def]
        dsimp only
        by_cases hc : c = 92
        · rw [if_pos hc, if_pos hc]
          cases rest with
          | nil => rfl
          | cons d rest₂ =>
            simp only [List.length_cons] at h1 h2
            dsimp only
            by_cases hd : d = 117
            · rw [if_pos hd, if_pos hd]
              cases huh : uHex4 rest₂ with
              | none =>
                dsimp only
                rw [ih m rest₂ (by omega) (by omega)]
              | some nr =>
                obtain ⟨val, rest₃⟩ := nr
                have hlen := uHex4_length huh
                dsimp only
                rw [ih m rest₃ (by omega) (by omega)]
            · rw [if_neg hd, if_neg hd]
              by_cases hl : isLineTerm d = true
              · rw [if_pos hl, if_pos hl, ih m rest₂ (by omega) (by omega)]
              · rw [if_neg hl, if_neg hl, ih m rest₂ (by omega) (by omega)]
        · rw [if_neg hc, if_neg hc, ih m rest (by omega) (by omega)]

theorem unescapeAux_over (r : Str) (k : Nat) :
    unescapeAux (r.length + k) r = unescape r :=
  unescapeAux_congr _ _ r (by omega) (by omega)

theorem unescape_nil : unescape [] = [] := rfl

theorem unescape_plain {c : Nat} (r : Str) (hc : c ≠ 92) :
    unescape (c :: r) = c :: unescape r := by
  show unescapeAux (c :: r).length (c :: r) = _
  rw [List.length_cons, unescapeAux.eq_def]
  dsimp only
  rw [if_neg hc]
  rfl

theorem unescape_single : unescape [92] = [92] := rfl

theorem unescape_step2 {d : Nat} (hd117 : d ≠ 117) (hdlt : isLineTerm d = false)
    (r : Str) : unescape (92 :: d :: r) = escChar d :: unescape r := by
  show unescapeAux (92 :: d :: r).length (92 :: d :: r) = _
  rw [List.length_cons, List.length_cons, unescapeAux.eq_def]
  dsimp only
  rw [if_pos rfl, if_neg hd117, if_neg (by simp [hdlt] : ¬isLineTerm d = true)]
  exact congrArg (escChar d :: ·) (unescapeAux_congr _ _ r (by omega) (by omega))

theorem unescape_lineterm {d : Nat} (hdlt : isLineTerm d = true) (r : Str) :
    unescape (92 :: d :: r) = 92 :: d :: unescape r := by
  have hd117 : d ≠ 117 := by
    simp only [isLineTerm, Bool.or_eq_true, beq_iff_eq] at hdlt
    omega
  show unescapeAux (92 :: d :: r).length (92 :: d :: r) = _
  rw [List.length_cons, List.length_cons, unescapeAux.eq_def]
  dsimp only
  rw [if_pos rfl, if_neg hd117, if_pos hdlt]
  exact congrArg (fun t => 92 :: d :: t) (unescapeAux_congr _ _ r (by omega) (by omega))

theorem unescape_u4 {a b e f ha hb he hf : Nat} (r : Str)
    (h1 : hexVal a = some ha) (h2 : hexVal b = some hb)
    (h3 : hexVal e = some he) (h4 : hexVal f = some hf) :
    unescape (92 :: 117 :: a :: b :: e :: f :: r)
      = (((ha * 16 + hb) * 16 + he) * 16 + hf) :: unescape r := by
  show unescapeAux (92 :: 117 :: a :: b :: e :: f :: r).length _ = _
  rw [List.length_cons, List.length_cons, List.length_cons, List.length_cons,
    List.length_cons, List.length_cons, unescapeAux.eq_def]
  dsimp only
  rw [if_pos rfl, if_pos rfl,
    show uHex4 (a :: b :: e :: f :: r) = some ((((ha * 16 + hb) * 16 + he) * 16 + hf), r)
      from by simp [uHex4, h1, h2, h3, h4]]
  dsimp only
  exact congrArg (_ :: ·) (unescapeAux_congr _ _ r (by omega) (by omega))

theorem unescape_u_bad {rest₂ : Str} (h : uHex4 rest₂ = none) :
    unescape (92 :: 117 :: rest₂) = 0 :: unescape rest₂ := by
  show unescapeAux (92 :: 117 :: rest₂).length _ = _
  rw [List.length_cons, List.length_cons, unescapeAux.eq_def]
  dsimp only
  rw [if_pos rfl, if_pos rfl, h]
  dsimp only
  exact congrArg (0 :: ·) (unescapeAux_congr _ _ rest₂ (by omega) (by omega))

theorem escDecode_not_u {d v : Nat} (h : escDecode d = some v) :
    d ≠ 117 ∧ isLineTerm d = false ∧ escChar d = v := by
  unfold escDecode at h
  split_ifs at h with hx1 hx2 hx3 hx4 hx5 hx6 hx7 hx8
  all_goals cases h
  all_goals subst_vars
  all_goals decide

theorem unescape_esc {d v : Nat} (r : Str) (h : escDecode d = some v) :
    unescape (92 :: d :: r) = v :: unescape r := by
  obtain ⟨h1, h2, h3⟩ := escDecode_not_u h
  rw [unescape_step2 h1 h2, h3]

theorem unescape_strBody : ∀ {raw dec : Str}, StrBody raw dec → unescape raw = dec := by
  intro raw dec h
  induction h with
  | nil => rfl
  | norm c raw dec hn _ ih => rw [unescape_plain raw hn.2.1, ih]
  | esc d v raw dec hd _ ih => rw [unescape_esc raw hd, ih]
  | uesc a b e f ha hb he hf raw dec h1 h2 h3 h4 _ ih =>
    rw [unescape_u4 raw h1 h2 h3 h4, ih]

end SchemaJson

namespace SchemaJson

open Parser

/-! ## The string-reading loops -/

theorem hexVal_ne {c h : Nat} (hh : hexVal c = some h) : c ≠ 34 ∧ c ≠ 92 := by
  unfold hexVal at hh
  split_ifs at hh <;> first | omega | cases hh

theorem strBody_rawScan : ∀ {raw dec : Str}, StrBody raw dec → RawScan raw := by
  intro raw dec h
  induction h with
  | nil => exact RawScan.nil
  | norm c raw dec hn _ ih => exact RawScan.plain c raw hn.1 hn.2.1 ih
  | esc d v raw dec _ _ ih => exact RawScan.esc d raw ih
  | uesc a b e f ha hb he hf raw dec h1 h2 h3 h4 _ ih =>
    exact RawScan.esc 117 _
      (RawScan.plain a _ (hexVal_ne h1).1 (hexVal_ne h1).2
        (RawScan.plain b _ (hexVal_ne h2).1 (hexVal_ne h2).2
          (RawScan.plain e _ (hexVal_ne h3).1 (hexVal_ne h3).2
            (RawScan.plain f _ (hexVal_ne h4).1 (hexVal_ne h4).2 ih))))

theorem readSimpleLoop_walk {s : Str} {raw : Str} (hr : RawScan raw) :
    ∀ {fuel pos start : Nat}, SegAt s pos (raw ++ [34]) → s.length ≤ pos + fuel →
      readSimpleLoop s start fuel pos
        = .ok (unescape (slice s start (pos + raw.length)), pos + raw.length + 1) := by
  induction hr with
  | nil =>
    intro fuel pos start hseg hfuel
    have hc : getc s pos = some 34 := segAt_getc (by simpa using hseg)
    have hlt := getc_some_lt hc
    cases fuel with
    | zero => omega
    | succ n => simp [readSimpleLoop, hc]
  | esc d raw' _ ih =>
    intro fuel pos start hseg hfuel
    have h92 : getc s pos = some 92 := segAt_getc (by simpa using hseg)
    have hlt := getc_some_lt h92
    cases fuel with
    | zero => omega
    | succ n =>
      have hseg1 : SegAt s (pos + 1) (d :: (raw' ++ [34])) := by
        have h := (segAt_cons.1 (by simpa using hseg)).2
        simpa using h
      have hseg2 : SegAt s (pos + 2) (raw' ++ [34]) := by
        have h := (segAt_cons.1 hseg1).2
        simpa [Nat.add_assoc] using h
      have hidx : pos + 2 + raw'.length = pos + (92 :: d :: raw').length := by
        simp only [List.length_cons]
        omega
      simp only [readSimpleLoop, h92, if_pos rfl]
      rw [ih hseg2 (by omega), hidx]
      simp
  | plain c raw' hc34 hc92 _ ih =>
    intro fuel pos start hseg hfuel
    have hc : getc s pos = some c := segAt_getc (by simpa using hseg)
    have hlt := getc_some_lt hc
    cases fuel with
    | zero => omega
    | succ n =>
      have hseg1 : SegAt s (pos + 1) (raw' ++ [34]) := (segAt_cons.1 (by simpa using hseg)).2
      have hidx : pos + 1 + raw'.length = pos + (c :: raw').length := by
        simp only [List.length_cons]
        omega
      simp only [readSimpleLoop, hc, if_neg hc92, if_neg hc34]
      rw [ih hseg1 (by omega), hidx]

theorem readSimpleString_run {s raw dec : Str} {pos : Nat} (hb : StrBody raw dec)
    (hseg : SegAt s pos ([34] ++ raw ++ [34])) :
    readSimpleString s pos = .ok (dec, pos + raw.length + 2) := by
  have hq : getc s pos = some 34 := segAt_getc (by simpa using hseg)
  have hrest : SegAt s (pos + 1) (raw ++ [34]) := by
    have h := (segAt_cons.1 (by simpa using hseg)).2
    simpa using h
  have hraw : SegAt s (pos + 1) raw := (segAt_append.1 hrest).1
  unfold readSimpleString
  rw [expect_ok hq]
  rw [readSimpleLoop_walk (strBody_rawScan hb) hrest (Nat.le_add_left _ _)]
  have hslice : slice s (pos + 1) (pos + 1 + raw.length) = raw := slice_of_segAt hraw
  rw [hslice, unescape_strBody hb]
  have hidx : pos + 1 + raw.length + 1 = pos + raw.length + 2 := by omega
  rw [hidx]

theorem readSimpleLoop_error {s : Str} {start : Nat} :
    ∀ {fuel pos : Nat} {e : PError}, readSimpleLoop s start fuel pos = .error e →
      e = ⟨"Unterminated string", start⟩ := by
  intro fuel
  induction fuel with
  | zero =>
    intro pos e h
    cases h
    rfl
  | succ n ih =>
    intro pos e h
    cases hg : getc s pos with
    | none =>
      simp only [readSimpleLoop, hg] at h
      cases h
      rfl
    | some ch =>
      simp only [readSimpleLoop, hg] at h
      by_cases h92 : ch = 92
      · rw [if_pos h92] at h
        exact ih h
      · rw [if_neg h92] at h
        by_cases h34 : ch = 34
        · rw [if_pos h34] at h
          cases h
        · rw [if_neg h34] at h
          exact ih h

theorem readSimpleLoop_pos {s : Str} {start : Nat} :
    ∀ {fuel pos : Nat} {v : Str} {p' : Nat},
      readSimpleLoop s start fuel pos = .ok (v, p') → pos < p' := by
  intro fuel
  induction fuel with
  | zero => intro pos v p' h; cases h
  | succ n ih =>
    intro pos v p' h
    cases hg : getc s pos with
    | none => simp only [readSimpleLoop, hg] at h; cases h
    | some ch =>
      simp only [readSimpleLoop, hg] at h
      by_cases h92 : ch = 92
      · rw [if_pos h92] at h
        have := ih h
        omega
      · rw [if_neg h92] at h
        by_cases h34 : ch = 34
        · rw [if_pos h34] at h
          cases h
          omega
        · rw [if_neg h34] at h
          have := ih h
          omega

theorem readSimpleString_pos {s : Str} {pos : Nat} {v : Str} {p' : Nat}
    (h : readSimpleString s pos = .ok (v, p')) : pos < p' := by
  unfold readSimpleString at h
  cases he : expect s 34 pos with
  | error e => rw [he] at h; cases h
  | ok u =>
    rw [he] at h
    have := readSimpleLoop_pos h
    omega

theorem readSimpleString_error {s : Str} {pos : Nat} {e : PError}
    (h : readSimpleString s pos = .error e) (hm : e.message = "Unterminated string") :
    e.position = pos + 1 := by
  unfold readSimpleString at h
  cases he : expect s 34 pos with
  | error e₂ =>
    rw [he] at h
    cases h
    unfold expect at he
    by_cases hc : getc s pos = some 34
    · rw [if_pos hc] at he; cases he
    · rw [if_neg hc] at he
      cases he
      simp at hm
  | ok u =>
    rw [he] at h
    rw [readSimpleLoop_error h]

end SchemaJson

namespace SchemaJson

open Parser

/-! ## The anchored string reader -/

theorem nextNonWs {s : Str} {k c : Nat} (hg : getc s k = some c) (hc : isWs c = false) :
    ∀ c', getc s k = some c' → isWs c' = false := by
  intro c' hc'
  rw [hg] at hc'
  cases hc'
  exact hc

theorem readAnchoredLoop_walk {s : Str} {nf? : Option Str} {raw : Str} (hr : RawScan raw) :
    ∀ {fuel pos start segStart : Nat} {parts : Str},
      SegAt s pos (raw ++ [34]) → isClosingQuote s nf? (pos + raw.length) = true →
      s.length ≤ pos + fuel →
      readAnchoredLoop s nf? start fuel parts segStart pos
        = .ok (unescape (parts ++ slice s segStart (pos + raw.length)),
               pos + raw.length + 1) := by
  induction hr with
  | nil =>
    intro fuel pos start segStart parts hseg hicq hfuel
    have hc : getc s pos = some 34 := segAt_getc (by simpa using hseg)
    have hlt := getc_some_lt hc
    simp only [List.length_nil, Nat.add_zero] at hicq
    cases fuel with
    | zero => omega
    | succ n => simp [readAnchoredLoop, hc, hicq]
  | esc d raw' _ ih =>
    intro fuel pos start segStart parts hseg hicq hfuel
    have h92 : getc s pos = some 92 := segAt_getc (by simpa using hseg)
    have hlt := getc_some_lt h92
    cases fuel with
    | zero => omega
    | succ n =>
      have hseg1 : SegAt s (pos + 1) (d :: (raw' ++ [34])) := by
        have h := (segAt_cons.1 (by simpa using hseg)).2
        simpa using h
      have hseg2 : SegAt s (pos + 2) (raw' ++ [34]) := by
        have h := (segAt_cons.1 hseg1).2
        simpa [Nat.add_assoc] using h
      have hidx : pos + 2 + raw'.length = pos + (92 :: d :: raw').length := by
        simp only [List.length_cons]
        omega
      have hicq2 : isClosingQuote s nf? (pos + 2 + raw'.length) = true := by
        rw [hidx]
        exact hicq
      simp only [readAnchoredLoop, h92, if_pos rfl]
      rw [ih hseg2 hicq2 (by omega), hidx]
      simp
  | plain c raw' hc34 hc92 _ ih =>
    intro fuel pos start segStart parts hseg hicq hfuel
    have hc : getc s pos = some c := segAt_getc (by simpa using hseg)
    have hlt := getc_some_lt hc
    cases fuel with
    | zero => omega
    | succ n =>
      have hseg1 : SegAt s (pos + 1) (raw' ++ [34]) := (segAt_cons.1 (by simpa using hseg)).2
      have hidx : pos + 1 + raw'.length = pos + (c :: raw').length := by
        simp only [List.length_cons]
        omega
      have hicq2 : isClosingQuote s nf? (pos + 1 + raw'.length) = true := by
        rw [hidx]
        exact hicq
      simp only [readAnchoredLoop, hc, if_neg hc92, if_neg hc34]
      rw [ih hseg1 hicq2 (by omega), hidx]

theorem readAnchoredString_run {s raw dec : Str} {nf? : Option Str} {pos : Nat}
    (hb : StrBody raw dec) (hseg : SegAt s pos ([34] ++ raw ++ [34]))
    (hicq : isClosingQuote s nf? (pos + 1 + raw.length) = true) :
    readAnchoredString s nf? pos = .ok (dec, pos + raw.length + 2) := by
  have hq : getc s pos = some 34 := segAt_getc (by simpa using hseg)
  have hrest : SegAt s (pos + 1) (raw ++ [34]) := by
    have h := (segAt_cons.1 (by simpa using hseg)).2
    simpa using h
  have hraw : SegAt s (pos + 1) raw := (segAt_append.1 hrest).1
  unfold readAnchoredString
  rw [expect_ok hq]
  rw [readAnchoredLoop_walk (strBody_rawScan hb) hrest hicq (Nat.le_add_left _ _)]
  rw [List.nil_append, slice_of_segAt hraw, unescape_strBody hb]
  have hidx : pos + 1 + raw.length + 1 = pos + raw.length + 2 := by omega
  rw [hidx]

theorem readAnchoredLoop_error {s : Str} {nf? : Option Str} {start : Nat} :
    ∀ {fuel pos segStart : Nat} {parts : Str} {e : PError},
      readAnchoredLoop s nf? start fuel parts segStart pos = .error e →
      e = ⟨"Unterminated string", start⟩ := by
  intro fuel
  induction fuel with
  | zero =>
    intro pos segStart parts e h
    cases h
    rfl
  | succ n ih =>
    intro pos segStart parts e h
    cases hg : getc s pos with
    | none =>
      simp only [readAnchoredLoop, hg] at h
      cases h
      rfl
    | some ch =>
      simp only [readAnchoredLoop, hg] at h
      by_cases h92 : ch = 92
      · rw [if_pos h92] at h
        exact ih h
      · rw [if_neg h92] at h
        by_cases h34 : ch = 34
        · rw [if_pos h34] at h
          by_cases hq : isClosingQuote s nf? pos = true
          · rw [if_pos hq] at h
            cases h
          · rw [if_neg hq] at h
            exact ih h
        · rw [if_neg h34] at h
          exact ih h

theorem readAnchoredLoop_pos {s : Str} {nf? : Option Str} {start : Nat} :
    ∀ {fuel pos segStart : Nat} {parts v : Str} {p' : Nat},
      readAnchoredLoop s nf? start fuel parts segStart pos = .ok (v, p') → pos < p' := by
  intro fuel
  induction fuel with
  | zero => intro pos segStart parts v p' h; cases h
  | succ n ih =>
    intro pos segStart parts v p' h
    cases hg : getc s pos with
    | none => simp only [readAnchoredLoop, hg] at h; cases h
    | some ch =>
      simp only [readAnchoredLoop, hg] at h
      by_cases h92 : ch = 92
      · rw [if_pos h92] at h
        have := ih h
        omega
      · rw [if_neg h92] at h
        by_cases h34 : ch = 34
        · rw [if_pos h34] at h
          by_cases hq : isClosingQuote s nf? pos = true
          · rw [if_pos hq] at h
            cases h
            omega
          · rw [if_neg hq] at h
            have := ih h
            omega
        · rw [if_neg h34] at h
          have := ih h
          omega

theorem readAnchoredString_pos {s : Str} {nf? : Option Str} {pos : Nat} {v : Str} {p' : Nat}
    (h : readAnchoredString s nf? pos = .ok (v, p')) : pos < p' := by
  unfold readAnchoredString at h
  cases he : expect s 34 pos with
  | error e => rw [he] at h; cases h
  | ok u =>
    rw [he] at h
    have := readAnchoredLoop_pos h
    omega

theorem readAnchoredString_error {s : Str} {nf? : Option Str} {pos : Nat} {e : PError}
    (h : readAnchoredString s nf? pos = .error e) (hm : e.message = "Unterminated string") :
    e.position = pos + 1 := by
  unfold readAnchoredString at h
  cases he : expect s 34 pos with
  | error e₂ =>
    rw [he] at h
    cases h
    unfold expect at he
    by_cases hc : getc s pos = some 34
    · rw [if_pos hc] at he; cases he
    · rw [if_neg hc] at he
      cases he
      simp at hm
  | ok u =>
    rw [he] at h
    rw [readAnchoredLoop_error h]

end SchemaJson

namespace SchemaJson

open Parser

/-! ## Acceptance of the terminator lookahead -/

theorem icq_of_anchorNext {s nf : Str} {pos : Nat} (h : anchorNext s nf pos) :
    isClosingQuote s (some nf) pos = true := by
  obtain ⟨a, b, c, hwa, hwb, hwc, hseg⟩ := h
  have hseg' : SegAt s (pos + 1)
      (a ++ (44 :: (b ++ (34 :: (nf ++ (34 :: (c ++ [58]))))))) := by
    simpa [List.append_assoc] using hseg
  obtain ⟨hA, h₁⟩ := segAt_append.1 hseg'
  obtain ⟨h44, h₂⟩ := segAt_cons.1 h₁
  obtain ⟨hB, h₃⟩ := segAt_append.1 h₂
  obtain ⟨h34a, h₄⟩ := segAt_cons.1 h₃
  obtain ⟨hNf, h₅⟩ := segAt_append.1 h₄
  obtain ⟨h34b, h₆⟩ := segAt_cons.1 h₅
  obtain ⟨hC, h₇⟩ := segAt_append.1 h₆
  have h58 := segAt_getc h₇
  have hj : skipWsFrom s (pos + 1) = pos + 1 + a.length :=
    skipWsFrom_run hwa hA (nextNonWs h44 (by decide))
  have hj₁ : skipWsFrom s (pos + 1 + a.length + 1) = pos + 1 + a.length + 1 + b.length :=
    skipWsFrom_run hwb hB (nextNonWs h34a (by decide))
  have hj₂ : skipWsFrom s (pos + 1 + a.length + 1 + b.length + 1 + nf.length + 1)
      = pos + 1 + a.length + 1 + b.length + 1 + nf.length + 1 + c.length :=
    skipWsFrom_run hwc hC (nextNonWs h58 (by decide))
  have hslice : slice s (pos + 1 + a.length + 1 + b.length + 1)
      (pos + 1 + a.length + 1 + b.length + 1 + nf.length) = nf := slice_of_segAt hNf
  simp [isClosingQuote, hj, hj₁, hj₂, h44, h34a, h34b, h58, hslice]

theorem icq_last_brace {s : Str} {pos : Nat} {w : Str} (hw : wsRun w)
    (hseg : SegAt s (pos + 1) (w ++ [125])) : isClosingQuote s none pos = true := by
  obtain ⟨hW, h₁⟩ := segAt_append.1 hseg
  have h125 := segAt_getc h₁
  have hj : skipWsFrom s (pos + 1) = pos + 1 + w.length :=
    skipWsFrom_run hw hW (nextNonWs h125 (by decide))
  simp [isClosingQuote, hj, h125]

theorem icq_last_comma {s : Str} {pos : Nat} {a b : Str} (hwa : wsRun a) (hwb : wsRun b)
    (hseg : SegAt s (pos + 1) (a ++ (44 :: (b ++ [125])))) :
    isClosingQuote s none pos = true := by
  obtain ⟨hA, h₁⟩ := segAt_append.1 hseg
  obtain ⟨h44, h₂⟩ := segAt_cons.1 h₁
  obtain ⟨hB, h₃⟩ := segAt_append.1 h₂
  have h125 := segAt_getc h₃
  have hj : skipWsFrom s (pos + 1) = pos + 1 + a.length :=
    skipWsFrom_run hwa hA (nextNonWs h44 (by decide))
  have hj₂ : skipWsFrom s (pos + 1 + a.length + 1) = pos + 1 + a.length + 1 + b.length :=
    skipWsFrom_run hwb hB (nextNonWs h125 (by decide))
  simp [isClosingQuote, hj, hj₂, h44, h125]

theorem icq_last_end {s : Str} {pos : Nat} (h : wsRun (s.drop (pos + 1))) :
    isClosingQuote s none pos = true := by
  have hseg : SegAt s (pos + 1) (s.drop (pos + 1)) := ⟨[], by simp⟩
  have hlen : (s.drop (pos + 1)).length = s.length - (pos + 1) := List.length_drop _ _
  have hle : s.length ≤ pos + 1 + (s.length - (pos + 1)) := by omega
  have hnone : getc s (pos + 1 + (s.length - (pos + 1))) = none := getc_eq_none.2 hle
  have hj : skipWsFrom s (pos + 1) = pos + 1 + (s.drop (pos + 1)).length :=
    skipWsFrom_run h hseg (fun c hc => by rw [hlen, hnone] at hc; cases hc)
  rw [hlen] at hj
  simp [isClosingQuote, hj, hnone, hle]

theorem icq_last_bracket {s : Str} {pos : Nat} {w : Str} (hw : wsRun w)
    (hseg : SegAt s (pos + 1) (w ++ [93])) : isClosingQuote s none pos = true := by
  obtain ⟨hW, h₁⟩ := segAt_append.1 hseg
  have h93 := segAt_getc h₁
  have hlt : pos + 1 + w.length < s.length := getc_some_lt h93
  have hj : skipWsFrom s (pos + 1) = pos + 1 + w.length :=
    skipWsFrom_run hw hW (nextNonWs h93 (by decide))
  simp [isClosingQuote, hj, h93, show ¬s.length ≤ pos + 1 + w.length from by omega]

end SchemaJson

namespace SchemaJson

open Parser

/-! ## Inversion of the terminator lookahead -/

theorem anchorNext_of_icq {s nf : Str} {pos : Nat}
    (h : isClosingQuote s (some nf) pos = true) : anchorNext s nf pos := by
  obtain ⟨a, hwa, hsa, hja, hna⟩ := skipWsFrom_decomp s (pos + 1)
  simp only [isClosingQuote] at h
  rw [hja] at h
  by_cases h44 : getc s (pos + 1 + a.length) = some 44
  · rw [if_neg (not_not_intro h44)] at h
    obtain ⟨b, hwb, hsb, hjb, hnb⟩ := skipWsFrom_decomp s (pos + 1 + a.length + 1)
    rw [hjb] at h
    by_cases h34 : getc s (pos + 1 + a.length + 1 + b.length) = some 34
    · rw [if_neg (not_not_intro h34)] at h
      by_cases hsl : slice s (pos + 1 + a.length + 1 + b.length + 1)
          (pos + 1 + a.length + 1 + b.length + 1 + nf.length) = nf
      · rw [if_neg (not_not_intro hsl)] at h
        by_cases h34b : getc s (pos + 1 + a.length + 1 + b.length + 1 + nf.length) = some 34
        · rw [if_neg (not_not_intro h34b)] at h
          obtain ⟨c, hwc, hsc, hjc, hnc⟩ :=
            skipWsFrom_decomp s (pos + 1 + a.length + 1 + b.length + 1 + nf.length + 1)
          rw [hjc] at h
          have h58 : getc s (pos + 1 + a.length + 1 + b.length + 1 + nf.length + 1 + c.length)
              = some 58 := of_decide_eq_true h
          refine ⟨a, b, c, hwa, hwb, hwc, ?_⟩
          have hfull : SegAt s (pos + 1)
              (a ++ (44 :: (b ++ (34 :: (nf ++ (34 :: (c ++ [58]))))))) := by
            refine segAt_append.2 ⟨hsa, segAt_cons.2 ⟨h44, segAt_append.2 ⟨hsb,
              segAt_cons.2 ⟨h34, segAt_append.2 ⟨segAt_of_slice hsl,
                segAt_cons.2 ⟨h34b, segAt_append.2 ⟨hsc,
                  segAt_cons.2 ⟨h58, segAt_nil s _⟩⟩⟩⟩⟩⟩⟩⟩
          simpa [List.append_assoc] using hfull
        · rw [if_pos h34b] at h
          cases h
      · rw [if_pos hsl] at h
        cases h
    · rw [if_pos h34] at h
      cases h
  · rw [if_pos h44] at h
    cases h

theorem anchorLast_of_icq {s : Str} {pos : Nat}
    (h : isClosingQuote s none pos = true) : anchorLast s pos := by
  obtain ⟨a, hwa, hsa, hja, hna⟩ := skipWsFrom_decomp s (pos + 1)
  simp only [isClosingQuote] at h
  rw [hja] at h
  cases hg : getc s (pos + 1 + a.length) with
  | none =>
    -- end of input after whitespace: the tail of the input is all whitespace
    refine Or.inr (Or.inr (Or.inl ?_))
    obtain ⟨r, hr⟩ := hsa
    have hdrop : (s.drop (pos + 1)).drop a.length = s.drop (pos + 1 + a.length) := by
      rw [List.drop_drop]
    rw [hr, List.drop_left] at hdrop
    have hnil : s.drop (pos + 1 + a.length) = [] :=
      List.drop_eq_nil_of_le (getc_eq_none.1 hg)
    rw [hnil] at hdrop
    rw [hr, hdrop]
    simpa using hwa
  | some c =>
    have hlt := getc_some_lt hg
    rw [hg] at h
    by_cases h125 : c = 125
    · subst h125
      exact Or.inl ⟨a, hwa, segAt_append.2 ⟨hsa, segAt_cons.2 ⟨hg, segAt_nil s _⟩⟩⟩
    · rw [if_neg (by simp [h125])] at h
      by_cases h44 : c = 44
      · subst h44
        obtain ⟨b, hwb, hsb, hjb, hnb⟩ := skipWsFrom_decomp s (pos + 1 + a.length + 1)
        rw [if_pos rfl, hjb] at h
        have h125b : getc s (pos + 1 + a.length + 1 + b.length) = some 125 :=
          of_decide_eq_true h
        refine Or.inr (Or.inl ⟨a, b, hwa, hwb, ?_⟩)
        have hfull : SegAt s (pos + 1) (a ++ (44 :: (b ++ [125]))) :=
          segAt_append.2 ⟨hsa, segAt_cons.2 ⟨hg, segAt_append.2 ⟨hsb,
            segAt_cons.2 ⟨h125b, segAt_nil s _⟩⟩⟩⟩
        simpa [List.append_assoc] using hfull
      · rw [if_neg (by simp [h44]), if_neg (by omega)] at h
        have h93 : c = 93 := by
          have h2 := of_decide_eq_true h
          exact Option.some.inj h2
        subst h93
        exact Or.inr (Or.inr (Or.inr ⟨a, hwa,
          segAt_append.2 ⟨hsa, segAt_cons.2 ⟨hg, segAt_nil s _⟩⟩⟩))

end SchemaJson

namespace SchemaJson

open Parser

/-! ## The string-array reader -/

theorem readArrayClose_ok {s : Str} {pos : Nat} {acc : List Str}
    (h93 : getc s pos = some 93) : readArrayClose s acc pos = .ok (acc, pos + 1) := by
  unfold readArrayClose
  rw [expect_ok h93]

theorem readStringArrayLoop_at93 {s : Str} {pos : Nat} (h93 : getc s pos = some 93) :
    ∀ fuel acc, readStringArrayLoop s fuel acc pos = readArrayClose s acc pos := by
  intro fuel acc
  cases fuel with
  | zero => rfl
  | succ n => simp [readStringArrayLoop, h93]

theorem elems_first {t : Str} {vs : List Str} (h : Elems t vs) :
    ∃ t', t = 34 :: t' := by
  cases h with
  | last raw dec w hb hw => exact ⟨raw ++ [34] ++ w ++ [93], by simp⟩
  | cons raw dec w₁ w₂ t₂ vs₂ hb hw₁ hw₂ h₂ =>
    exact ⟨raw ++ [34] ++ w₁ ++ [44] ++ w₂ ++ t₂, by simp⟩

theorem readStringArrayLoop_walk {s : Str} {t : Str} {vs : List Str} (h : Elems t vs) :
    ∀ {fuel pos : Nat} {acc : List Str}, SegAt s pos t → s.length ≤ pos + fuel →
      readStringArrayLoop s fuel acc pos = .ok (acc ++ vs, pos + t.length) := by
  induction h with
  | last raw dec w hb hw =>
    intro fuel pos acc hseg hfuel
    have hseg' : SegAt s pos (34 :: (raw ++ (34 :: (w ++ [93])))) := by
      simpa [List.append_assoc] using hseg
    have h34 : getc s pos = some 34 := segAt_getc hseg'
    have hlt := getc_some_lt h34
    have hstr : SegAt s pos ([34] ++ raw ++ [34]) := by
      have h1 := (segAt_cons.1 hseg').2
      obtain ⟨hraw, h2⟩ := segAt_append.1 h1
      obtain ⟨hq, h3⟩ := segAt_cons.1 h2
      have : SegAt s pos (34 :: (raw ++ [34])) :=
        segAt_cons.2 ⟨h34, segAt_append.2 ⟨hraw, segAt_cons.2 ⟨hq, segAt_nil s _⟩⟩⟩
      simpa [List.append_assoc] using this
    have hW : SegAt s (pos + 1 + raw.length + 1) (w ++ [93]) := by
      have h1 := (segAt_cons.1 hseg').2
      obtain ⟨hraw, h2⟩ := segAt_append.1 h1
      obtain ⟨hq, h3⟩ := segAt_cons.1 h2
      exact h3
    obtain ⟨hWr, hBr⟩ := segAt_append.1 hW
    have h93 : getc s (pos + 1 + raw.length + 1 + w.length) = some 93 := segAt_getc hBr
    cases fuel with
    | zero => omega
    | succ n =>
      simp only [readStringArrayLoop, h34]
      rw [if_neg (by omega)]
      rw [readSimpleString_run hb hstr]
      have hidx : pos + raw.length + 2 = pos + 1 + raw.length + 1 := by omega
      have hsw : skipWs s (pos + raw.length + 2) = pos + 1 + raw.length + 1 + w.length := by
        rw [hidx]
        exact skipWs_run hw hWr (nextNonWs h93 (by decide))
      simp only [hsw]
      rw [tryConsume_miss (by simp [h93])]
      rw [skipWs_eq_self (nextNonWs h93 (by decide))]
      rw [readStringArrayLoop_at93 h93, readArrayClose_ok h93]
      have : pos + 1 + raw.length + 1 + w.length + 1
          = pos + ([34] ++ raw ++ [34] ++ w ++ [93]).length := by
        simp [List.length_append]
        omega
      rw [this]
  | cons raw dec w₁ w₂ t₂ vs₂ hb hw₁ hw₂ h₂ ih =>
    intro fuel pos acc hseg hfuel
    have hseg' : SegAt s pos (34 :: (raw ++ (34 :: (w₁ ++ (44 :: (w₂ ++ t₂)))))) := by
      simpa [List.append_assoc] using hseg
    have h34 : getc s pos = some 34 := segAt_getc hseg'
    have hlt := getc_some_lt h34
    have h1 := (segAt_cons.1 hseg').2
    obtain ⟨hraw, h2⟩ := segAt_append.1 h1
    obtain ⟨hq, h3⟩ := segAt_cons.1 h2
    have hstr : SegAt s pos ([34] ++ raw ++ [34]) := by
      have : SegAt s pos (34 :: (raw ++ [34])) :=
        segAt_cons.2 ⟨h34, segAt_append.2 ⟨hraw, segAt_cons.2 ⟨hq, segAt_nil s _⟩⟩⟩
      simpa [List.append_assoc] using this
    obtain ⟨hW1, h4⟩ := segAt_append.1 h3
    obtain ⟨h44, h5⟩ := segAt_cons.1 h4
    obtain ⟨hW2, hT2⟩ := segAt_append.1 h5
    obtain ⟨t₂', ht₂'⟩ := elems_first h₂
    have h34b : getc s (pos + 1 + raw.length + 1 + w₁.length + 1 + w₂.length) = some 34 := by
      rw [ht₂'] at hT2
      exact segAt_getc hT2
    cases fuel with
    | zero => omega
    | succ n =>
      simp only [readStringArrayLoop, h34]
      rw [if_neg (by omega)]
      rw [readSimpleString_run hb hstr]
      have hidx : pos + raw.length + 2 = pos + 1 + raw.length + 1 := by omega
      have hsw : skipWs s (pos + raw.length + 2) = pos + 1 + raw.length + 1 + w₁.length := by
        rw [hidx]
        exact skipWs_run hw₁ hW1 (nextNonWs h44 (by decide))
      simp only [hsw]
      rw [tryConsume_hit h44]
      have hsw₂ : skipWs s (pos + 1 + raw.length + 1 + w₁.length + 1)
          = pos + 1 + raw.length + 1 + w₁.length + 1 + w₂.length :=
        skipWs_run hw₂ hW2 (nextNonWs h34b (by decide))
      rw [hsw₂]
      rw [ih hT2 (by omega)]
      have : pos + 1 + raw.length + 1 + w₁.length + 1 + w₂.length + t₂.length
          = pos + ([34] ++ raw ++ [34] ++ w₁ ++ [44] ++ w₂ ++ t₂).length := by
        simp [List.length_append]
        omega
      rw [this]
      simp

theorem readStringArray_run {s : Str} {t : Str} {vs : List Str} {pos : Nat}
    (h : ArrLit t vs) (hseg : SegAt s pos t) :
    readStringArray s pos = .ok (vs, pos + t.length) := by
  cases h with
  | empty w hw =>
    have hseg' : SegAt s pos (91 :: (w ++ [93])) := by
      simpa [List.append_assoc] using hseg
    have h91 : getc s pos = some 91 := segAt_getc hseg'
    have hW := (segAt_cons.1 hseg').2
    obtain ⟨hWr, hBr⟩ := segAt_append.1 hW
    have h93 : getc s (pos + 1 + w.length) = some 93 := segAt_getc hBr
    unfold readStringArray
    rw [expect_ok h91]
    rw [skipWs_run hw hWr (nextNonWs h93 (by decide))]
    rw [readStringArrayLoop_at93 h93 _ _, readArrayClose_ok h93]
    have : pos + 1 + w.length + 1 = pos + ([91] ++ w ++ [93]).length := by
      simp [List.length_append]
      omega
    rw [this]
  | elems w t' vs hw he =>
    have hseg' : SegAt s pos (91 :: (w ++ t')) := by
      simpa [List.append_assoc] using hseg
    have h91 : getc s pos = some 91 := segAt_getc hseg'
    have hW := (segAt_cons.1 hseg').2
    obtain ⟨hWr, hT⟩ := segAt_append.1 hW
    obtain ⟨t₂', ht₂'⟩ := elems_first he
    have h34 : getc s (pos + 1 + w.length) = some 34 := by
      rw [ht₂'] at hT
      exact segAt_getc hT
    unfold readStringArray
    rw [expect_ok h91]
    rw [skipWs_run hw hWr (nextNonWs h34 (by decide))]
    rw [readStringArrayLoop_walk he hT (Nat.le_add_left _ _)]
    have : pos + 1 + w.length + t'.length = pos + ([91] ++ w ++ t').length := by
      simp [List.length_append]
      omega
    rw [this, List.nil_append]

end SchemaJson

namespace SchemaJson

open Parser

/-! ## Keys and fields -/

theorem expectKey_run {s name g wa wb : Str} {pos : Nat}
    (hg : ∀ c ∈ g, c ≠ 34) (hname : ∀ c ∈ name, c ≠ 34)
    (hwa : wsRun wa) (hwb : wsRun wb)
    (hseg : SegAt s pos (g ++ [34] ++ name ++ [34] ++ wa ++ [58] ++ wb))
    (hnext : ∀ c,
      getc s (pos + g.length + 1 + name.length + 1 + wa.length + 1 + wb.length) = some c →
      isWs c = false) :
    expectKey s name pos
      = .ok (pos + g.length + 1 + name.length + 1 + wa.length + 1 + wb.length) := by
  have hseg' : SegAt s pos (g ++ (34 :: (name ++ (34 :: (wa ++ (58 :: wb)))))) := by
    simpa [List.append_assoc] using hseg
  obtain ⟨hG, h₁⟩ := segAt_append.1 hseg'
  obtain ⟨hq1, h₂⟩ := segAt_cons.1 h₁
  obtain ⟨hName, h₃⟩ := segAt_append.1 h₂
  obtain ⟨hq2, h₄⟩ := segAt_cons.1 h₃
  obtain ⟨hWa, h₅⟩ := segAt_append.1 h₄
  obtain ⟨h58, hWb⟩ := segAt_cons.1 h₅
  have h1 : skipTo s 34 pos = .ok (pos + g.length) :=
    skipTo_run hg (segAt_append.2 ⟨hG, segAt_cons.2 ⟨hq1, segAt_nil s _⟩⟩)
  have h2 : indexOfFrom s 34 (pos + g.length + 1) = some (pos + g.length + 1 + name.length) :=
    indexOfFrom_run hname (segAt_append.2 ⟨hName, segAt_cons.2 ⟨hq2, segAt_nil s _⟩⟩)
  have h3 : slice s (pos + g.length + 1) (pos + g.length + 1 + name.length) = name :=
    slice_of_segAt hName
  have h4 : skipWs s (pos + g.length + 1 + name.length + 1)
      = pos + g.length + 1 + name.length + 1 + wa.length :=
    skipWs_run hwa hWa (nextNonWs h58 (by decide))
  have h5 : expect s 58 (pos + g.length + 1 + name.length + 1 + wa.length) = .ok () :=
    expect_ok h58
  have h6 : skipWs s (pos + g.length + 1 + name.length + 1 + wa.length + 1)
      = pos + g.length + 1 + name.length + 1 + wa.length + 1 + wb.length :=
    skipWs_run hwb hWb hnext
  simp [expectKey, h1, h2, h3, h4, h5, h6]

theorem valR_first {fd : FieldDef} {vt : Str} {v : JValue} (h : ValR fd vt v) :
    ∃ c vt', vt = c :: vt' ∧ (c = 34 ∨ c = 91) := by
  unfold ValR at h
  cases hft : fd.type with
  | string =>
    rw [hft] at h
    obtain ⟨raw, dec, hb, hvt, hv⟩ := h
    exact ⟨34, raw ++ [34], by simp [hvt], Or.inl rfl⟩
  | stringList =>
    rw [hft] at h
    obtain ⟨vs, ha, hv⟩ := h
    cases ha with
    | empty w hw => exact ⟨91, w ++ [93], by simp, Or.inr rfl⟩
    | elems w t' vs hw he => exact ⟨91, w ++ t', by simp, Or.inr rfl⟩

theorem valR_first_nonWs {fd : FieldDef} {vt : Str} {v : JValue} {s : Str} {k : Nat}
    (h : ValR fd vt v) (hseg : SegAt s k vt) :
    ∀ c, getc s k = some c → isWs c = false := by
  obtain ⟨c, vt', hvt, hc⟩ := valR_first h
  rw [hvt] at hseg
  have hgc := segAt_getc hseg
  intro c' hc'
  rw [hgc] at hc'
  cases hc'
  rcases hc with h | h <;> subst h <;> decide

theorem fieldSeq_head {fd : FieldDef} {rest : List FieldDef} {t : Str} {r : RecV}
    (h : FieldSeq (fd :: rest) t r) :
    ∃ w₁ w₂ vt tail v r', wsRun w₁ ∧ wsRun w₂ ∧ ValR fd vt v ∧
      t = [34] ++ fd.name ++ [34] ++ w₁ ++ [58] ++ w₂ ++ vt ++ tail ∧
      r = (fd.name, v) :: r' := by
  cases h with
  | last fd w₁ w₂ w₃ vt v hw₁ hw₂ hw₃ hval =>
    exact ⟨w₁, w₂, vt, w₃ ++ [125], v, [], hw₁, hw₂, hval, by simp [List.append_assoc], rfl⟩
  | cons fd fd₂ rest w₁ w₂ w₃ w₄ vt t₂ v r₂ hw₁ hw₂ hw₃ hw₄ hval hrest =>
    exact ⟨w₁, w₂, vt, w₃ ++ [44] ++ w₄ ++ t₂, v, r₂, hw₁, hw₂, hval,
      by simp [List.append_assoc], rfl⟩

end SchemaJson

namespace SchemaJson

open Parser

/-! ## Walking a record's fields -/

theorem parseFields_cons (s : Str) (fd : FieldDef) (rest : List FieldDef)
    (item : RecV) (pos : Nat) :
    parseFields s (fd :: rest) item pos =
      match expectKey s fd.name pos with
      | .error e => .error e
      | .ok p₁ =>
        let p₂ := skipWs s p₁
        let rv : Except PError (JValue × Nat) :=
          match fd.type with
          | .string =>
            match readAnchoredString s
                (match rest with | fd₂ :: _ => some fd₂.name | [] => none) p₂ with
            | .error e => .error e
            | .ok (v, p) => .ok (.str v, p)
          | .stringList =>
            match readStringArray s p₂ with
            | .error e => .error e
            | .ok (vs, p) => .ok (.arr vs, p)
        match rv with
        | .error e => .error e
        | .ok (v, p₃) =>
          let p₄ := skipWs s p₃
          let p₅ := (tryConsume s 44 p₄).2
          parseFields s rest (item ++ [(fd.name, v)]) (skipWs s p₅) := rfl

theorem parseFields_run {s : Str} {fields : List FieldDef} {t : Str} {r : RecV}
    (h : FieldSeq fields t r) :
    (∀ fd ∈ fields, ∀ c ∈ fd.name, c ≠ 34) →
    ∀ {pos : Nat} {item : RecV}, SegAt s pos t →
      parseFields s fields item pos = .ok (item ++ r, pos + t.length - 1) := by
  induction h with
  | last fd w₁ w₂ w₃ vt v hw₁ hw₂ hw₃ hval =>
    intro hnames pos item hseg
    have hname : ∀ c ∈ fd.name, c ≠ 34 := hnames fd (by simp)
    have hseg' : SegAt s pos
        (34 :: (fd.name ++ (34 :: (w₁ ++ (58 :: (w₂ ++ (vt ++ (w₃ ++ [125])))))))) := by
      simpa [List.append_assoc] using hseg
    obtain ⟨hq1, h₁⟩ := segAt_cons.1 hseg'
    obtain ⟨hName, h₂⟩ := segAt_append.1 h₁
    obtain ⟨hq2, h₃⟩ := segAt_cons.1 h₂
    obtain ⟨hW1, h₄⟩ := segAt_append.1 h₃
    obtain ⟨h58, h₅⟩ := segAt_cons.1 h₄
    obtain ⟨hW2, h₆⟩ := segAt_append.1 h₅
    obtain ⟨hVt, h₇⟩ := segAt_append.1 h₆
    -- the value's start position, as it appears in the hypotheses
    set PV := pos + 1 + fd.name.length + 1 + w₁.length + 1 + w₂.length with hPV
    have hKey : SegAt s pos (([] : Str) ++ [34] ++ fd.name ++ [34] ++ w₁ ++ [58] ++ w₂) := by
      simpa [List.append_assoc] using
        segAt_cons.2 ⟨hq1, segAt_append.2 ⟨hName, segAt_cons.2 ⟨hq2,
          segAt_append.2 ⟨hW1, segAt_cons.2 ⟨h58, hW2⟩⟩⟩⟩⟩
    have hvNonWs : ∀ c, getc s PV = some c → isWs c = false := valR_first_nonWs hval hVt
    have hek : expectKey s fd.name pos = .ok PV := by
      have h0 := expectKey_run (g := []) (by simp) hname hw₁ hw₂ hKey
        (fun c hc => hvNonWs c (by simpa using hc))
      simpa using h0
    have hswv : skipWs s PV = PV := skipWs_eq_self hvNonWs
    obtain ⟨hW3, hBr⟩ := segAt_append.1 h₇
    have h125 : getc s (PV + vt.length + w₃.length) = some 125 := segAt_getc hBr
    -- the value itself
    have hvalue :
        (match fd.type with
          | .string =>
            match readAnchoredString s
                (match ([] : List FieldDef) with
                  | fd₂ :: _ => some fd₂.name | [] => none) PV with
            | .error e => .error e
            | .ok (v, p) => .ok (JValue.str v, p)
          | .stringList =>
            match readStringArray s PV with
            | .error e => .error e
            | .ok (vs, p) => .ok (JValue.arr vs, p))
          = (.ok (v, PV + vt.length) : Except PError (JValue × Nat)) := by
      unfold ValR at hval
      cases hft : fd.type with
      | string =>
        rw [hft] at hval
        obtain ⟨raw, dec, hb, hvt, hv⟩ := hval
        have hlen : PV + vt.length = PV + 1 + raw.length + 1 := by
          rw [hvt]
          simp only [List.length_append, List.length_cons, List.length_nil]
          omega
        have hVt' : SegAt s PV ([34] ++ raw ++ [34]) := by rw [hvt] at hVt; exact hVt
        have h₇' : SegAt s (PV + 1 + raw.length + 1) (w₃ ++ [125]) := by
          rw [hlen] at h₇
          exact h₇
        have hicq : isClosingQuote s none (PV + 1 + raw.length) = true :=
          icq_last_brace hw₃ h₇'
        rw [readAnchoredString_run hb hVt' hicq]
        rw [hv]
        have : PV + raw.length + 2 = PV + vt.length := by omega
        rw [this]
      | stringList =>
        rw [hft] at hval
        obtain ⟨vs, ha, hv⟩ := hval
        rw [readStringArray_run ha hVt, hv]
    have hsw₃ : skipWs s (PV + vt.length) = PV + vt.length + w₃.length :=
      skipWs_run hw₃ hW3 (nextNonWs h125 (by decide))
    have htc : (tryConsume s 44 (PV + vt.length + w₃.length)).2
        = PV + vt.length + w₃.length := tryConsume_miss (by simp [h125])
    have hsw125 : skipWs s (PV + vt.length + w₃.length) = PV + vt.length + w₃.length :=
      skipWs_eq_self (nextNonWs h125 (by decide))
    simp only [parseFields, hek, hswv, hvalue, hsw₃, htc, hsw125]
    have hidx : PV + vt.length + w₃.length
        = pos + ([34] ++ fd.name ++ [34] ++ w₁ ++ [58] ++ w₂ ++ vt ++ w₃ ++ [125]).length
          - 1 := by
      simp only [List.length_append, List.length_cons, List.length_nil]
      omega
    rw [hidx]
  | cons fd fd₂ rest w₁ w₂ w₃ w₄ vt t₂ v r₂ hw₁ hw₂ hw₃ hw₄ hval hrest ih =>
    intro hnames pos item hseg
    have hname : ∀ c ∈ fd.name, c ≠ 34 := hnames fd (by simp)
    have hseg' : SegAt s pos
        (34 :: (fd.name ++ (34 :: (w₁ ++ (58 :: (w₂ ++ (vt ++ (w₃ ++ (44 :: (w₄ ++ t₂)))))))))) := by
      simpa [List.append_assoc] using hseg
    obtain ⟨hq1, h₁⟩ := segAt_cons.1 hseg'
    obtain ⟨hName, h₂⟩ := segAt_append.1 h₁
    obtain ⟨hq2, h₃⟩ := segAt_cons.1 h₂
    obtain ⟨hW1, h₄⟩ := segAt_append.1 h₃
    obtain ⟨h58, h₅⟩ := segAt_cons.1 h₄
    obtain ⟨hW2, h₆⟩ := segAt_append.1 h₅
    obtain ⟨hVt, h₇⟩ := segAt_append.1 h₆
    set PV := pos + 1 + fd.name.length + 1 + w₁.length + 1 + w₂.length with hPV
    have hKey : SegAt s pos (([] : Str) ++ [34] ++ fd.name ++ [34] ++ w₁ ++ [58] ++ w₂) := by
      simpa [List.append_assoc] using
        segAt_cons.2 ⟨hq1, segAt_append.2 ⟨hName, segAt_cons.2 ⟨hq2,
          segAt_append.2 ⟨hW1, segAt_cons.2 ⟨h58, hW2⟩⟩⟩⟩⟩
    have hvNonWs : ∀ c, getc s PV = some c → isWs c = false := valR_first_nonWs hval hVt
    have hek : expectKey s fd.name pos = .ok PV := by
      have h0 := expectKey_run (g := []) (by simp) hname hw₁ hw₂ hKey
        (fun c hc => hvNonWs c (by simpa using hc))
      simpa using h0
    have hswv : skipWs s PV = PV := skipWs_eq_self hvNonWs
    obtain ⟨hW3, h₈⟩ := segAt_append.1 h₇
    obtain ⟨h44, h₉⟩ := segAt_cons.1 h₈
    obtain ⟨hW4, hT₂⟩ := segAt_append.1 h₉
    obtain ⟨w₁', w₂', vt', tail', v', r', hw₁', hw₂', hval', ht₂, hr₂⟩ := fieldSeq_head hrest
    -- decompose the head of the next field's text for the anchor lookahead
    have hT₂' : SegAt s (PV + vt.length + w₃.length + 1 + w₄.length)
        (34 :: (fd₂.name ++ (34 :: (w₁' ++ (58 :: (w₂' ++ (vt' ++ tail'))))))) := by
      rw [ht₂] at hT₂
      simpa [List.append_assoc] using hT₂
    obtain ⟨hq1', hh₁⟩ := segAt_cons.1 hT₂'
    obtain ⟨hName', hh₂⟩ := segAt_append.1 hh₁
    obtain ⟨hq2', hh₃⟩ := segAt_cons.1 hh₂
    obtain ⟨hW1', hh₄⟩ := segAt_append.1 hh₃
    obtain ⟨h58', hh₅⟩ := segAt_cons.1 hh₄
    have h34next : getc s (PV + vt.length + w₃.length + 1 + w₄.length) = some 34 :=
      segAt_getc hT₂'
    have hvalue :
        (match fd.type with
          | .string =>
            match readAnchoredString s (some fd₂.name) PV with
            | .error e => .error e
            | .ok (v, p) => .ok (JValue.str v, p)
          | .stringList =>
            match readStringArray s PV with
            | .error e => .error e
            | .ok (vs, p) => .ok (JValue.arr vs, p))
          = (.ok (v, PV + vt.length) : Except PError (JValue × Nat)) := by
      unfold ValR at hval
      cases hft : fd.type with
      | string =>
        rw [hft] at hval
        obtain ⟨raw, dec, hb, hvt, hv⟩ := hval
        have hlen : PV + vt.length = PV + 1 + raw.length + 1 := by
          rw [hvt]
          simp only [List.length_append, List.length_cons, List.length_nil]
          omega
        have hVt' : SegAt s PV ([34] ++ raw ++ [34]) := by rw [hvt] at hVt; exact hVt
        have hanchor : anchorNext s fd₂.name (PV + 1 + raw.length) := by
          refine ⟨w₃, w₄, w₁', hw₃, hw₄, hw₁', ?_⟩
          have hfull : SegAt s (PV + vt.length)
              (w₃ ++ (44 :: (w₄ ++ (34 :: (fd₂.name ++ (34 :: (w₁' ++ [58]))))))) := by
            refine segAt_append.2 ⟨hW3, segAt_cons.2 ⟨h44, segAt_append.2 ⟨hW4,
              segAt_cons.2 ⟨h34next, segAt_append.2 ⟨hName', segAt_cons.2 ⟨hq2',
                segAt_append.2 ⟨hW1', segAt_cons.2 ⟨h58', segAt_nil s _⟩⟩⟩⟩⟩⟩⟩⟩
          have hposq : PV + vt.length = PV + 1 + raw.length + 1 := hlen
          rw [hposq] at hfull
          simpa [List.append_assoc] using hfull
        have hicq : isClosingQuote s (some fd₂.name) (PV + 1 + raw.length) = true :=
          icq_of_anchorNext hanchor
        rw [readAnchoredString_run hb hVt' hicq]
        rw [hv]
        have : PV + raw.length + 2 = PV + vt.length := by omega
        rw [this]
      | stringList =>
        rw [hft] at hval
        obtain ⟨vs, ha, hv⟩ := hval
        rw [readStringArray_run ha hVt, hv]
    have hsw₃ : skipWs s (PV + vt.length) = PV + vt.length + w₃.length :=
      skipWs_run hw₃ hW3 (nextNonWs h44 (by decide))
    have htc : (tryConsume s 44 (PV + vt.length + w₃.length)).2
        = PV + vt.length + w₃.length + 1 := tryConsume_hit h44
    have hsw₄ : skipWs s (PV + vt.length + w₃.length + 1)
        = PV + vt.length + w₃.length + 1 + w₄.length :=
      skipWs_run hw₄ hW4 (nextNonWs h34next (by decide))
    have hnames' : ∀ fd ∈ fd₂ :: rest, ∀ c ∈ fd.name, c ≠ 34 :=
      fun fd hfd => hnames fd (by simp [hfd])
    have hihres := @ih hnames' (PV + vt.length + w₃.length + 1 + w₄.length)
      (item ++ [(fd.name, v)]) hT₂
    rw [parseFields_cons, hek]
    dsimp only
    rw [hswv]
    rw [hvalue]
    dsimp only
    rw [hsw₃, htc, hsw₄, hihres]
    have ht₂len : 1 ≤ t₂.length := by
      rw [ht₂]
      simp [List.length_append]
    have hidx : PV + vt.length + w₃.length + 1 + w₄.length + t₂.length - 1
        = pos + ([34] ++ fd.name ++ [34] ++ w₁ ++ [58] ++ w₂ ++ vt ++ w₃
            ++ [44] ++ w₄ ++ t₂).length - 1 := by
      simp only [List.length_append, List.length_cons, List.length_nil]
      omega
    rw [hidx]
    simp

end SchemaJson

namespace SchemaJson

open Parser

/-! ## Walking records and the record loop -/

theorem fieldSeq_first {fields : List FieldDef} {t : Str} {r : RecV}
    (h : FieldSeq fields t r) : ∃ t', t = 34 :: t' := by
  cases h with
  | last fd w₁ w₂ w₃ vt v hw₁ hw₂ hw₃ hval =>
    exact ⟨fd.name ++ [34] ++ w₁ ++ [58] ++ w₂ ++ vt ++ w₃ ++ [125],
      by simp [List.append_assoc]⟩
  | cons fd fd₂ rest w₁ w₂ w₃ w₄ vt t₂ v r₂ hw₁ hw₂ hw₃ hw₄ hval hrest =>
    exact ⟨fd.name ++ [34] ++ w₁ ++ [58] ++ w₂ ++ vt ++ w₃ ++ [44] ++ w₄ ++ t₂,
      by simp [List.append_assoc]⟩

theorem fieldSeq_ends {fields : List FieldDef} {t : Str} {r : RecV}
    (h : FieldSeq fields t r) : ∃ t₀, t = t₀ ++ [125] := by
  induction h with
  | last fd w₁ w₂ w₃ vt v hw₁ hw₂ hw₃ hval =>
    exact ⟨[34] ++ fd.name ++ [34] ++ w₁ ++ [58] ++ w₂ ++ vt ++ w₃, rfl⟩
  | cons fd fd₂ rest w₁ w₂ w₃ w₄ vt t₂ v r₂ hw₁ hw₂ hw₃ hw₄ hval hrest ih =>
    obtain ⟨t₀, ht₀⟩ := ih
    exact ⟨[34] ++ fd.name ++ [34] ++ w₁ ++ [58] ++ w₂ ++ vt ++ w₃ ++ [44] ++ w₄ ++ t₀,
      by rw [ht₀]; simp [List.append_assoc]⟩

theorem recR_first {fields : List FieldDef} {t : Str} {rec : RecV}
    (h : RecR fields t rec) : ∃ t', t = 123 :: t' := by
  obtain ⟨w, ft, hw, hf, ht⟩ := h
  exact ⟨w ++ ft, by simp [ht]⟩

theorem parseObject_run {s : Str} {fields : List FieldDef} {t : Str} {rec : RecV}
    {pos : Nat} (h : RecR fields t rec)
    (hnames : ∀ fd ∈ fields, ∀ c ∈ fd.name, c ≠ 34)
    (hseg : SegAt s pos t) :
    parseObject s fields pos = .ok (rec, pos + t.length) := by
  obtain ⟨w, ft, hw, hf, ht⟩ := h
  rw [ht] at hseg
  have hseg' : SegAt s pos (123 :: (w ++ ft)) := by simpa using hseg
  have h123 : getc s pos = some 123 := segAt_getc hseg'
  obtain ⟨hW, hFt⟩ := segAt_append.1 (segAt_cons.1 hseg').2
  obtain ⟨ft', hft'⟩ := fieldSeq_first hf
  have h34 : getc s (pos + 1 + w.length) = some 34 := by
    rw [hft'] at hFt
    exact segAt_getc hFt
  obtain ⟨ft₀, hft₀⟩ := fieldSeq_ends hf
  have hftlen : ft.length = ft₀.length + 1 := by
    rw [hft₀]
    simp
  have h125 : getc s (pos + 1 + w.length + ft₀.length) = some 125 := by
    rw [hft₀] at hFt
    obtain ⟨h1, h2⟩ := segAt_append.1 hFt
    exact segAt_getc h2
  unfold parseObject
  rw [skipTo_here h123]
  dsimp only
  have hsw : skipWs s (pos + 1) = pos + 1 + w.length :=
    skipWs_run hw hW (nextNonWs h34 (by decide))
  rw [hsw]
  rw [parseFields_run hf hnames hFt]
  dsimp only
  have hidx : pos + 1 + w.length + ft.length - 1 = pos + 1 + w.length + ft₀.length := by
    omega
  rw [hidx]
  rw [skipTo_here h125]
  dsimp only
  have hidx₂ : pos + 1 + w.length + ft₀.length + 1 = pos + ([123] ++ w ++ ft).length := by
    simp only [List.length_append, List.length_cons, List.length_nil]
    omega
  rw [hidx₂]
  simp
  rw [ht]
  simp only [List.length_append, List.length_cons, List.length_nil]
  omega

theorem recSeq_first {fields : List FieldDef} {t : Str} {recs : List RecV}
    (h : RecSeq fields t recs) : ∃ c t', t = c :: t' ∧ (c = 123 ∨ c = 93) := by
  cases h with
  | nilR => exact ⟨93, [], rfl, Or.inr rfl⟩
  | lastR t w rec hR hw =>
    obtain ⟨t', ht'⟩ := recR_first hR
    exact ⟨123, t' ++ w ++ [93], by simp [ht', List.append_assoc], Or.inl rfl⟩
  | consR t w₁ w₂ t₂ rec rec₂ rest hR hw₁ hw₂ hseq =>
    obtain ⟨t', ht'⟩ := recR_first hR
    exact ⟨123, t' ++ w₁ ++ [44] ++ w₂ ++ t₂, by simp [ht', List.append_assoc], Or.inl rfl⟩

theorem parseLoop_at93 {s : Str} {fields : List FieldDef} {pos : Nat}
    (h93 : getc s pos = some 93) :
    ∀ fuel acc, parseLoop s fields fuel acc pos = .ok (acc, pos) := by
  intro fuel acc
  cases fuel with
  | zero => rfl
  | succ n => simp [parseLoop, h93]

theorem parseLoop_walk {s : Str} {fields : List FieldDef} {t : Str} {recs : List RecV}
    (h : RecSeq fields t recs)
    (hnames : ∀ fd ∈ fields, ∀ c ∈ fd.name, c ≠ 34) :
    ∀ {fuel pos : Nat} {acc : List RecV}, SegAt s pos t → s.length ≤ pos + fuel →
      parseLoop s fields fuel acc pos = .ok (acc ++ recs, pos + t.length - 1) := by
  induction h with
  | nilR =>
    intro fuel pos acc hseg hfuel
    have h93 : getc s pos = some 93 := segAt_getc hseg
    rw [parseLoop_at93 h93]
    simp
  | lastR t w rec hR hw =>
    intro fuel pos acc hseg hfuel
    obtain ⟨hT, h₁⟩ := segAt_append.1 (by simpa [List.append_assoc] using hseg :
      SegAt s pos (t ++ (w ++ [93])))
    obtain ⟨hW, hBr⟩ := segAt_append.1 h₁
    have h93 : getc s (pos + t.length + w.length) = some 93 := segAt_getc hBr
    obtain ⟨t', ht'⟩ := recR_first hR
    have h123 : getc s pos = some 123 := by
      rw [ht'] at hT
      exact segAt_getc hT
    have hlt := getc_some_lt h123
    cases fuel with
    | zero => omega
    | succ n =>
      simp only [parseLoop, h123]
      rw [if_neg (by omega)]
      rw [parseObject_run hR hnames hT]
      dsimp only
      have hsw : skipWs s (pos + t.length) = pos + t.length + w.length :=
        skipWs_run hw hW (nextNonWs h93 (by decide))
      rw [hsw]
      rw [tryConsume_miss (by simp [h93])]
      rw [skipWs_eq_self (nextNonWs h93 (by decide))]
      rw [parseLoop_at93 h93]
      have hidx : pos + t.length + w.length
          = pos + (t ++ w ++ [93]).length - 1 := by
        simp only [List.length_append, List.length_cons, List.length_nil]
        omega
      rw [hidx]
  | consR t w₁ w₂ t₂ rec rec₂ rest hR hw₁ hw₂ hseq ih =>
    intro fuel pos acc hseg hfuel
    obtain ⟨hT, h₁⟩ := segAt_append.1 (by simpa [List.append_assoc] using hseg :
      SegAt s pos (t ++ (w₁ ++ (44 :: (w₂ ++ t₂)))))
    obtain ⟨hW1, h₂⟩ := segAt_append.1 h₁
    obtain ⟨h44, h₃⟩ := segAt_cons.1 h₂
    obtain ⟨hW2, hT₂⟩ := segAt_append.1 h₃
    obtain ⟨c₂, t₂', ht₂', hc₂⟩ := recSeq_first hseq
    have hc2g : getc s (pos + t.length + w₁.length + 1 + w₂.length) = some c₂ := by
      rw [ht₂'] at hT₂
      exact segAt_getc hT₂
    have hc2nws : isWs c₂ = false := by
      rcases hc₂ with h | h <;> subst h <;> decide
    obtain ⟨t', ht'⟩ := recR_first hR
    have h123 : getc s pos = some 123 := by
      rw [ht'] at hT
      exact segAt_getc hT
    have hlt := getc_some_lt h123
    have htlen : 1 ≤ t.length := by
      rw [ht']
      simp
    cases fuel with
    | zero => omega
    | succ n =>
      simp only [parseLoop, h123]
      rw [if_neg (by omega)]
      rw [parseObject_run hR hnames hT]
      dsimp only
      have hsw : skipWs s (pos + t.length) = pos + t.length + w₁.length :=
        skipWs_run hw₁ hW1 (nextNonWs h44 (by decide))
      rw [hsw]
      rw [tryConsume_hit h44]
      have hsw₂ : skipWs s (pos + t.length + w₁.length + 1)
          = pos + t.length + w₁.length + 1 + w₂.length :=
        skipWs_run hw₂ hW2 (nextNonWs hc2g hc2nws)
      rw [hsw₂]
      rw [ih hT₂ (by omega)]
      have ht₂len : 1 ≤ t₂.length := by
        rw [ht₂']
        simp
      have hidx : pos + t.length + w₁.length + 1 + w₂.length + t₂.length - 1
          = pos + (t ++ w₁ ++ [44] ++ w₂ ++ t₂).length - 1 := by
        simp only [List.length_append, List.length_cons, List.length_nil]
        omega
      rw [hidx]
      simp

end SchemaJson

namespace SchemaJson

open Parser

/-! ## Navigating the envelope -/

theorem parse_nav {s : Str} {fields : List FieldDef} {w₁ w₂ w₃ w₄ w₅ rest : Str}
    (hw₁ : wsRun w₁) (hw₂ : wsRun w₂) (hw₃ : wsRun w₃) (hw₄ : wsRun w₄) (hw₅ : wsRun w₅)
    (hs : s = w₁ ++ [123] ++ w₂ ++ ([34] ++ str "items" ++ [34]) ++ w₃ ++ [58] ++ w₄
        ++ [91] ++ w₅ ++ rest)
    (hhead : ∃ c rest', rest = c :: rest' ∧ (c = 123 ∨ c = 93)) :
    parse s fields
      = (match parseLoop s fields s.length []
            (0 + w₁.length + 1 + w₂.length + 1 + (str "items").length + 1 + w₃.length + 1
              + w₄.length + 1 + w₅.length) with
          | .error e => .error e
          | .ok (items, _) => .ok items)
    ∧ s.drop (0 + w₁.length + 1 + w₂.length + 1 + (str "items").length + 1 + w₃.length + 1
        + w₄.length + 1 + w₅.length) = rest := by
  obtain ⟨ch, rest', hrest', hch⟩ := hhead
  have hseg0 : SegAt s 0
      (w₁ ++ (123 :: (w₂ ++ (34 :: (str "items" ++ (34 :: (w₃ ++ (58 :: (w₄ ++ (91 ::
        (w₅ ++ rest))))))))))) := by
    refine ⟨[], ?_⟩
    rw [List.drop_zero, hs]
    simp [List.append_assoc]
  obtain ⟨hW1, h₁⟩ := segAt_append.1 hseg0
  obtain ⟨h123, h₂⟩ := segAt_cons.1 h₁
  obtain ⟨hW2, h₃⟩ := segAt_append.1 h₂
  obtain ⟨hq1, h₄⟩ := segAt_cons.1 h₃
  obtain ⟨hItems, h₅⟩ := segAt_append.1 h₄
  obtain ⟨hq2, h₆⟩ := segAt_cons.1 h₅
  obtain ⟨hW3, h₇⟩ := segAt_append.1 h₆
  obtain ⟨h58, h₈⟩ := segAt_cons.1 h₇
  obtain ⟨hW4, h₉⟩ := segAt_append.1 h₈
  obtain ⟨h91, h₁₀⟩ := segAt_cons.1 h₉
  obtain ⟨hW5, hRest⟩ := segAt_append.1 h₁₀
  have hchg : getc s (0 + w₁.length + 1 + w₂.length + 1 + (str "items").length + 1
      + w₃.length + 1 + w₄.length + 1 + w₅.length) = some ch := by
    rw [hrest'] at hRest
    exact segAt_getc hRest
  have hchnws : isWs ch = false := by
    rcases hch with h | h <;> subst h <;> decide
  have hskip1 : skipTo s 123 0 = .ok (0 + w₁.length) :=
    skipTo_run (fun c hc => (isWs_ne (hw₁ c hc)).2.2.2.2.2.1)
      (segAt_append.2 ⟨hW1, segAt_cons.2 ⟨h123, segAt_nil s _⟩⟩)
  have hKeySeg : SegAt s (0 + w₁.length + 1)
      (w₂ ++ [34] ++ str "items" ++ [34] ++ w₃ ++ [58] ++ w₄) := by
    simpa [List.append_assoc] using
      segAt_append.2 ⟨hW2, segAt_cons.2 ⟨hq1, segAt_append.2 ⟨hItems,
        segAt_cons.2 ⟨hq2, segAt_append.2 ⟨hW3, segAt_cons.2 ⟨h58, hW4⟩⟩⟩⟩⟩⟩
  have hek : expectKey s (str "items") (0 + w₁.length + 1)
      = .ok (0 + w₁.length + 1 + w₂.length + 1 + (str "items").length + 1 + w₃.length + 1
        + w₄.length) :=
    expectKey_run (fun c hc => (isWs_ne (hw₂ c hc)).1) (by decide) hw₃ hw₄ hKeySeg
      (nextNonWs h91 (by decide))
  have hskip2 : skipTo s 91 (0 + w₁.length + 1 + w₂.length + 1 + (str "items").length + 1
      + w₃.length + 1 + w₄.length) = .ok (0 + w₁.length + 1 + w₂.length + 1
      + (str "items").length + 1 + w₃.length + 1 + w₄.length) :=
    skipTo_here h91
  have hsw5 : skipWs s (0 + w₁.length + 1 + w₂.length + 1 + (str "items").length + 1
      + w₃.length + 1 + w₄.length + 1)
      = 0 + w₁.length + 1 + w₂.length + 1 + (str "items").length + 1 + w₃.length + 1
        + w₄.length + 1 + w₅.length :=
    skipWs_run hw₅ hW5 (nextNonWs hchg hchnws)
  constructor
  · unfold parse
    rw [hskip1]
    dsimp only
    rw [hek]
    dsimp only
    rw [hskip2]
    dsimp only
    rw [hsw5]
  · obtain ⟨r, hr⟩ := hRest
    have hr2 : (s.drop (0 + w₁.length + 1 + w₂.length + 1 + (str "items").length + 1
        + w₃.length + 1 + w₄.length + 1 + w₅.length)).length
        = rest.length + r.length := by
      rw [hr]
      simp
    have hr3 : s.length = 0 + w₁.length + 1 + w₂.length + 1 + (str "items").length + 1
        + w₃.length + 1 + w₄.length + 1 + w₅.length + rest.length := by
      have hslen := congrArg List.length hs
      simp only [List.length_append, List.length_cons, List.length_nil] at hslen
      have hd := List.length_drop (0 + w₁.length + 1 + w₂.length + 1
        + (str "items").length + 1 + w₃.length + 1 + w₄.length + 1 + w₅.length) s
      omega
    have hrnil : r = [] := by
      have hd := List.length_drop (0 + w₁.length + 1 + w₂.length + 1
        + (str "items").length + 1 + w₃.length + 1 + w₄.length + 1 + w₅.length) s
      rw [hr2] at hd
      have : r.length = 0 := by omega
      exact List.length_eq_zero.1 this
    rw [hrnil] at hr
    simpa using hr

theorem parse_run {s : Str} {fields : List FieldDef} {recs : List RecV}
    (h : StrictItems fields s recs)
    (hnames : ∀ fd ∈ fields, ∀ c ∈ fd.name, c ≠ 34) :
    parse s fields = .ok recs := by
  obtain ⟨w₁, w₂, w₃, w₄, w₅, wA, wB, body, hw₁, hw₂, hw₃, hw₄, hw₅, hwA, hwB, hseq, hs⟩ := h
  obtain ⟨ch, body', hbody', hch⟩ := recSeq_first hseq
  obtain ⟨hnav, hdrop⟩ := parse_nav hw₁ hw₂ hw₃ hw₄ hw₅
    (show s = w₁ ++ [123] ++ w₂ ++ ([34] ++ str "items" ++ [34]) ++ w₃ ++ [58] ++ w₄
        ++ [91] ++ w₅ ++ (body ++ (wA ++ (125 :: wB))) from by
      rw [hs]; simp [List.append_assoc])
    ⟨ch, body' ++ (wA ++ (125 :: wB)), by rw [hbody']; simp, hch⟩
  have hBody : SegAt s (0 + w₁.length + 1 + w₂.length + 1 + (str "items").length + 1
      + w₃.length + 1 + w₄.length + 1 + w₅.length) body :=
    ⟨wA ++ (125 :: wB), by rw [hdrop]⟩
  rw [hnav]
  rw [parseLoop_walk hseq hnames hBody (Nat.le_add_left _ _)]
  simp

/-! ## The truncated-input record sequence -/

theorem parseLoop_atEnd {s : Str} {fields : List FieldDef} :
    ∀ {fuel pos : Nat} {acc : List RecV}, s.length ≤ pos →
      parseLoop s fields fuel acc pos = .ok (acc, pos) := by
  intro fuel pos acc h
  cases fuel with
  | zero => rfl
  | succ n =>
    have hg : getc s pos = none := getc_eq_none.2 h
    simp [parseLoop, hg]

theorem truncSeq_first {fields : List FieldDef} {t : Str} {recs : List RecV}
    (h : TruncSeq fields t recs) : ∃ t', t = 123 :: t' := by
  cases h with
  | one t rec hR => exact recR_first hR
  | cons t w₁ w₂ t₂ rec rest hR hw₁ hw₂ hseq =>
    obtain ⟨t', ht'⟩ := recR_first hR
    exact ⟨t' ++ w₁ ++ [44] ++ w₂ ++ t₂, by simp [ht', List.append_assoc]⟩

theorem parseLoopTrunc_walk {s : Str} {fields : List FieldDef} {t : Str} {recs : List RecV}
    (h : TruncSeq fields t recs)
    (hnames : ∀ fd ∈ fields, ∀ c ∈ fd.name, c ≠ 34) :
    ∀ {fuel pos : Nat} {acc : List RecV}, s.drop pos = t → s.length ≤ pos + fuel →
      parseLoop s fields fuel acc pos = .ok (acc ++ recs, s.length) := by
  induction h with
  | one t rec hR =>
    intro fuel pos acc hdrop hfuel
    have hseg : SegAt s pos t := ⟨[], by rw [hdrop]; simp⟩
    obtain ⟨t', ht'⟩ := recR_first hR
    have h123 : getc s pos = some 123 := by
      rw [ht'] at hseg
      exact segAt_getc hseg
    have hlt := getc_some_lt h123
    have hend : pos + t.length = s.length := by
      have hd := List.length_drop pos s
      rw [hdrop] at hd
      omega
    cases fuel with
    | zero => omega
    | succ n =>
      simp only [parseLoop, h123]
      rw [if_neg (by omega)]
      rw [parseObject_run hR hnames (by rw [ht'] at hseg ⊢; exact hseg)]
      dsimp only
      have hnone : getc s (pos + t.length) = none := getc_eq_none.2 (by omega)
      have hsw1 : skipWs s (pos + t.length) = pos + t.length :=
        skipWs_eq_self (fun c hc => by rw [hnone] at hc; cases hc)
      have htc1 : (tryConsume s 44 (pos + t.length)).2 = pos + t.length :=
        tryConsume_miss (by simp [hnone])
      rw [hsw1, htc1, hsw1, hend]
      exact parseLoop_atEnd (Nat.le_refl _)
  | cons t w₁ w₂ t₂ rec rest hR hw₁ hw₂ hseq ih =>
    intro fuel pos acc hdrop hfuel
    have hseg : SegAt s pos (t ++ (w₁ ++ (44 :: (w₂ ++ t₂)))) :=
      ⟨[], by rw [hdrop]; simp [List.append_assoc]⟩
    obtain ⟨hT, h₁⟩ := segAt_append.1 hseg
    obtain ⟨hW1, h₂⟩ := segAt_append.1 h₁
    obtain ⟨h44, h₃⟩ := segAt_cons.1 h₂
    obtain ⟨hW2, hT₂⟩ := segAt_append.1 h₃
    obtain ⟨t₂', ht₂'⟩ := truncSeq_first hseq
    have h123b : getc s (pos + t.length + w₁.length + 1 + w₂.length) = some 123 := by
      rw [ht₂'] at hT₂
      exact segAt_getc hT₂
    obtain ⟨t', ht'⟩ := recR_first hR
    have h123 : getc s pos = some 123 := by
      rw [ht'] at hT
      exact segAt_getc hT
    have hlt := getc_some_lt h123
    have hdrop₂ : s.drop (pos + t.length + w₁.length + 1 + w₂.length) = t₂ := by
      have hpre : s.drop pos = (t ++ w₁ ++ [44] ++ w₂) ++ t₂ := by
        rw [hdrop]
      have h2 : (s.drop pos).drop ((t ++ w₁ ++ [44] ++ w₂).length) = t₂ := by
        rw [hpre, List.drop_left]
      rw [List.drop_drop] at h2
      have hidx : pos + (t ++ w₁ ++ [44] ++ w₂).length
          = pos + t.length + w₁.length + 1 + w₂.length := by
        simp only [List.length_append, List.length_cons, List.length_nil]
        omega
      rw [hidx] at h2
      exact h2
    cases fuel with
    | zero => omega
    | succ n =>
      simp only [parseLoop, h123]
      rw [if_neg (by omega)]
      rw [parseObject_run hR hnames hT]
      dsimp only
      have hsw : skipWs s (pos + t.length) = pos + t.length + w₁.length :=
        skipWs_run hw₁ hW1 (nextNonWs h44 (by decide))
      rw [hsw]
      rw [tryConsume_hit h44]
      have hsw₂ : skipWs s (pos + t.length + w₁.length + 1)
          = pos + t.length + w₁.length + 1 + w₂.length :=
        skipWs_run hw₂ hW2 (nextNonWs h123b (by decide))
      rw [hsw₂]
      rw [ih hdrop₂ (by omega)]
      simp

theorem parseTrunc_run {s : Str} {fields : List FieldDef} {recs : List RecV}
    {w₁ w₂ w₃ w₄ w₅ body : Str}
    (hw₁ : wsRun w₁) (hw₂ : wsRun w₂) (hw₃ : wsRun w₃) (hw₄ : wsRun w₄) (hw₅ : wsRun w₅)
    (hseq : TruncSeq fields body recs)
    (hnames : ∀ fd ∈ fields, ∀ c ∈ fd.name, c ≠ 34)
    (hs : s = w₁ ++ [123] ++ w₂ ++ ([34] ++ str "items" ++ [34]) ++ w₃ ++ [58] ++ w₄
        ++ [91] ++ w₅ ++ body) :
    parse s fields = .ok recs := by
  obtain ⟨body', hbody'⟩ := truncSeq_first hseq
  obtain ⟨hnav, hdrop⟩ := parse_nav hw₁ hw₂ hw₃ hw₄ hw₅ hs
    ⟨123, body', hbody', Or.inl rfl⟩
  rw [hnav]
  rw [parseLoopTrunc_walk hseq hnames hdrop (Nat.le_add_left _ _)]
  simp

end SchemaJson

namespace SchemaJson

open Parser

/-! ## Monotonicity of the cursor -/

theorem skipWs_le (s : Str) (pos : Nat) : pos ≤ skipWs s pos :=
  skipWsAux_le s s.length pos

theorem expectKey_ok_le {s name : Str} {pos p' : Nat}
    (h : expectKey s name pos = .ok p') : pos ≤ p' := by
  unfold expectKey at h
  cases hsk : skipTo s 34 pos with
  | error e => rw [hsk] at h; cases h
  | ok q =>
    rw [hsk] at h
    dsimp only at h
    obtain ⟨hq, -⟩ := skipToAux_ok hsk
    cases hio : indexOfFrom s 34 (q + 1) with
    | none => rw [hio] at h; cases h
    | some keyEnd =>
      rw [hio] at h
      dsimp only at h
      have hke := indexOfAux_some hio
      by_cases hsl : slice s (q + 1) keyEnd = name
      · rw [if_pos hsl] at h
        cases hex : expect s 58 (skipWs s (keyEnd + 1)) with
        | error e => rw [hex] at h; cases h
        | ok u =>
          rw [hex] at h
          cases h
          have h1 := skipWs_le s (keyEnd + 1)
          have h2 := skipWs_le s (skipWs s (keyEnd + 1) + 1)
          omega
      · rw [if_neg hsl] at h
        cases h

theorem readArrayClose_le {s : Str} {acc vs : List Str} {pos p' : Nat}
    (h : readArrayClose s acc pos = .ok (vs, p')) : pos ≤ p' := by
  unfold readArrayClose at h
  cases hex : expect s 93 pos with
  | error e => rw [hex] at h; cases h
  | ok u =>
    rw [hex] at h
    cases h
    omega

theorem readStringArrayLoop_le {s : Str} :
    ∀ {fuel pos : Nat} {acc vs : List Str} {p' : Nat},
      readStringArrayLoop s fuel acc pos = .ok (vs, p') → pos ≤ p' := by
  intro fuel
  induction fuel with
  | zero =>
    intro pos acc vs p' h
    exact readArrayClose_le h
  | succ n ih =>
    intro pos acc vs p' h
    cases hg : getc s pos with
    | none =>
      simp only [readStringArrayLoop, hg] at h
      exact readArrayClose_le h
    | some ch =>
      simp only [readStringArrayLoop, hg] at h
      by_cases h93 : ch = 93
      · rw [if_pos h93] at h
        exact readArrayClose_le h
      · rw [if_neg h93] at h
        cases hrs : readSimpleString s pos with
        | error e => rw [hrs] at h; cases h
        | ok vp =>
          obtain ⟨v, p₁⟩ := vp
          rw [hrs] at h
          dsimp only at h
          have h1 := readSimpleString_pos hrs
          have h2 := skipWs_le s p₁
          have h3 := tryConsume_le s 44 (skipWs s p₁)
          have h4 := skipWs_le s (tryConsume s 44 (skipWs s p₁)).2
          have h5 := ih h
          omega

theorem readStringArray_lt {s : Str} {pos : Nat} {vs : List Str} {p' : Nat}
    (h : readStringArray s pos = .ok (vs, p')) : pos < p' := by
  unfold readStringArray at h
  cases hex : expect s 91 pos with
  | error e => rw [hex] at h; cases h
  | ok u =>
    rw [hex] at h
    have h1 := skipWs_le s (pos + 1)
    have h2 := readStringArrayLoop_le h
    omega

theorem parseFields_le {s : Str} :
    ∀ {fields : List FieldDef} {item : RecV} {pos : Nat} {itm : RecV} {p' : Nat},
      parseFields s fields item pos = .ok (itm, p') → pos ≤ p' := by
  intro fields
  induction fields with
  | nil =>
    intro item pos itm p' h
    cases h
    omega
  | cons fd rest ih =>
    intro item pos itm p' h
    rw [parseFields_cons] at h
    cases hek : expectKey s fd.name pos with
    | error e => rw [hek] at h; cases h
    | ok p₁ =>
      rw [hek] at h
      dsimp only at h
      have h1 := expectKey_ok_le hek
      have h2 := skipWs_le s p₁
      cases hft : fd.type with
      | string =>
        rw [hft] at h
        dsimp only at h
        cases rest with
        | nil =>
          dsimp only at h
          cases hra : readAnchoredString s none (skipWs s p₁) with
          | error e =>
            rw [hra] at h
            cases h
          | ok vp =>
            obtain ⟨v, p₃⟩ := vp
            rw [hra] at h
            dsimp only at h
            have h3 := readAnchoredString_pos hra
            have h4 := skipWs_le s p₃
            have h5 := tryConsume_le s 44 (skipWs s p₃)
            have h6 := skipWs_le s (tryConsume s 44 (skipWs s p₃)).2
            have h7 := ih h
            omega
        | cons fd₂ rest' =>
          dsimp only at h
          cases hra : readAnchoredString s (some fd₂.name) (skipWs s p₁) with
          | error e =>
            rw [hra] at h
            cases h
          | ok vp =>
            obtain ⟨v, p₃⟩ := vp
            rw [hra] at h
            dsimp only at h
            have h3 := readAnchoredString_pos hra
            have h4 := skipWs_le s p₃
            have h5 := tryConsume_le s 44 (skipWs s p₃)
            have h6 := skipWs_le s (tryConsume s 44 (skipWs s p₃)).2
            have h7 := ih h
            omega
      | stringList =>
        rw [hft] at h
        dsimp only at h
        cases hra : readStringArray s (skipWs s p₁) with
        | error e =>
          rw [hra] at h
          cases h
        | ok vp =>
          obtain ⟨v, p₃⟩ := vp
          rw [hra] at h
          dsimp only at h
          have h3 := readStringArray_lt hra
          have h4 := skipWs_le s p₃
          have h5 := tryConsume_le s 44 (skipWs s p₃)
          have h6 := skipWs_le s (tryConsume s 44 (skipWs s p₃)).2
          have h7 := ih h
          omega

theorem parseObject_lt {s : Str} {fields : List FieldDef} {pos : Nat} {rec : RecV}
    {p' : Nat} (h : parseObject s fields pos = .ok (rec, p')) : pos < p' := by
  unfold parseObject at h
  cases hsk : skipTo s 123 pos with
  | error e => rw [hsk] at h; cases h
  | ok q =>
    rw [hsk] at h
    dsimp only at h
    obtain ⟨hq, -⟩ := skipToAux_ok hsk
    cases hpf : parseFields s fields [] (skipWs s (q + 1)) with
    | error e => rw [hpf] at h; cases h
    | ok ip =>
      obtain ⟨item, p₁⟩ := ip
      rw [hpf] at h
      dsimp only at h
      cases hsk₂ : skipTo s 125 p₁ with
      | error e => rw [hsk₂] at h; cases h
      | ok r =>
        rw [hsk₂] at h
        cases h
        have h1 := skipWs_le s (q + 1)
        have h2 := parseFields_le hpf
        obtain ⟨h3, -⟩ := skipToAux_ok hsk₂
        omega

theorem parseLoop_le {s : Str} {fields : List FieldDef} :
    ∀ {fuel pos : Nat} {acc items : List RecV} {p' : Nat},
      parseLoop s fields fuel acc pos = .ok (items, p') → pos ≤ p' := by
  intro fuel
  induction fuel with
  | zero =>
    intro pos acc items p' h
    cases h
    omega
  | succ n ih =>
    intro pos acc items p' h
    cases hg : getc s pos with
    | none =>
      simp only [parseLoop, hg] at h
      cases h
      omega
    | some ch =>
      simp only [parseLoop, hg] at h
      by_cases h93 : ch = 93
      · rw [if_pos h93] at h
        cases h
        omega
      · rw [if_neg h93] at h
        cases hpo : parseObject s fields pos with
        | error e => rw [hpo] at h; cases h
        | ok ip =>
          obtain ⟨item, p₁⟩ := ip
          rw [hpo] at h
          dsimp only at h
          have h1 := parseObject_lt hpo
          have h2 := skipWs_le s p₁
          have h3 := tryConsume_le s 44 (skipWs s p₁)
          have h4 := skipWs_le s (tryConsume s 44 (skipWs s p₁)).2
          have h5 := ih h
          omega

/-! ## End-of-input behaviour of the scan loops -/

theorem readAnchoredLoop_atEnd {s : Str} {nf? : Option Str} {st : Nat} :
    ∀ {fuel pos segStart : Nat} {parts : Str}, s.length ≤ pos →
      readAnchoredLoop s nf? st fuel parts segStart pos
        = .error ⟨"Unterminated string", st⟩ := by
  intro fuel pos segStart parts h
  cases fuel with
  | zero => rfl
  | succ n =>
    have hg : getc s pos = none := getc_eq_none.2 h
    simp [readAnchoredLoop, hg]

theorem readSimpleLoop_atEnd {s : Str} {st : Nat} :
    ∀ {fuel pos : Nat}, s.length ≤ pos →
      readSimpleLoop s st fuel pos = .error ⟨"Unterminated string", st⟩ := by
  intro fuel pos h
  cases fuel with
  | zero => rfl
  | succ n =>
    have hg : getc s pos = none := getc_eq_none.2 h
    simp [readSimpleLoop, hg]

theorem readAnchoredLoop_bs_end {s : Str} {nf? : Option Str} {st : Nat}
    {fuel pos segStart : Nat} {parts : Str}
    (h92 : getc s pos = some 92) (hend : s.length ≤ pos + 2) :
    readAnchoredLoop s nf? st fuel parts segStart pos
      = .error ⟨"Unterminated string", st⟩ := by
  cases fuel with
  | zero => rfl
  | succ n =>
    simp only [readAnchoredLoop, h92, if_pos rfl]
    exact readAnchoredLoop_atEnd hend

theorem readSimpleLoop_bs_end {s : Str} {st : Nat} {fuel pos : Nat}
    (h92 : getc s pos = some 92) (hend : s.length ≤ pos + 2) :
    readSimpleLoop s st fuel pos = .error ⟨"Unterminated string", st⟩ := by
  cases fuel with
  | zero => rfl
  | succ n =>
    simp only [readSimpleLoop, h92, if_pos rfl]
    exact readSimpleLoop_atEnd hend

end SchemaJson

namespace SchemaJson

open Parser

/-! ## The claims -/

/-- C1: in `readAnchoredString` with a non-null next field, (i) a backslash
always begins a two-character escape unit: the scanner jumps past both
characters without testing either as a terminator candidate and without
touching the pending segment, so both are later copied verbatim into the
value (an escaped quote is therefore never a terminator candidate);
(ii) an unescaped quote is accepted as the true terminator exactly when the
text after it matches — whitespace ignored between the tokens — comma,
opening quote, the next field's exact name, closing quote, colon;
(iii) on acceptance the reader returns with the cursor immediately after
the terminating quote; (iv) a quote failing the lookahead is written into
the buffer as an escaped quote (`\"`) and scanning resumes after it. -/
theorem c1_anchored_string_scan (s nf : Str) (start segStart pos fuel : Nat) (parts : Str) :
    (getc s pos = some 92 →
      readAnchoredLoop s (some nf) start (fuel + 1) parts segStart pos
        = readAnchoredLoop s (some nf) start fuel parts segStart (pos + 2)) ∧
    (isClosingQuote s (some nf) pos = true ↔ anchorNext s nf pos) ∧
    (getc s pos = some 34 → isClosingQuote s (some nf) pos = true →
      readAnchoredLoop s (some nf) start (fuel + 1) parts segStart pos
        = .ok (unescape (parts ++ slice s segStart pos), pos + 1)) ∧
    (getc s pos = some 34 → isClosingQuote s (some nf) pos = false →
      readAnchoredLoop s (some nf) start (fuel + 1) parts segStart pos
        = readAnchoredLoop s (some nf) start fuel
            (parts ++ slice s segStart pos ++ [92, 34]) (pos + 1) (pos + 1)) := by
  refine ⟨?_, ⟨anchorNext_of_icq, icq_of_anchorNext⟩, ?_, ?_⟩
  · intro h92
    simp [readAnchoredLoop, h92]
  · intro h34 hicq
    simp [readAnchoredLoop, h34, hicq]
  · intro h34 hicq
    simp [readAnchoredLoop, h34, hicq]

/-- Witness for C1: on the input `a","u":` scanning inside an anchored
string with next field `u`, the quote at index 1 passes the lookahead and
the reader returns the segment before it with the cursor right after the
quote. -/
theorem c1_witness :
    readAnchoredLoop [97, 34, 44, 34, 117, 34, 58] (some [117]) 0 10 [] 0 1
      = .ok (unescape ([] ++ slice [97, 34, 44, 34, 117, 34, 58] 0 1), 1 + 1) :=
  (c1_anchored_string_scan [97, 34, 44, 34, 117, 34, 58] [117] 0 0 1 9 []).2.2.1
    (by decide) (by decide)

/-- C2: for the schema `[{title, string}, {url, string}]`, the input
`{"items": [{"title": "Say "hello" now", "url": "http://x"}]}` parses
successfully; `title` decodes to `Say "hello" now` with both embedded
quotes preserved, and `url` decodes to `http://x`. -/
theorem c2_embedded_quote_example :
    parseItemsArray
      (str "\x7b\"items\": [\x7b\"title\": \"Say \"hello\" now\", \"url\": \"http://x\"\x7d]\x7d")
      [⟨str "title", .string⟩, ⟨str "url", .string⟩]
      = .ok [[(str "title", .str (str "Say \"hello\" now")),
              (str "url", .str (str "http://x"))]] := by decide

/-- C3: for the last schema field (`nextField` null), an unescaped quote
terminates the string if and only if the lookahead after it finds,
ignoring whitespace, the record-closing brace, or a comma followed
(ignoring whitespace) by the brace, or the end of the input, or the
array-closing bracket; in particular a last-field value followed directly
by the brace terminates, as does one followed by a comma and the brace. -/
theorem c3_last_field_lookahead :
    (∀ (s : Str) (pos : Nat), isClosingQuote s none pos = true ↔ anchorLast s pos) ∧
    isClosingQuote (str "\"x\"\x7d") none 2 = true ∧
    isClosingQuote (str "\"x\", \x7d") none 2 = true := by
  refine ⟨fun s pos => ⟨anchorLast_of_icq, ?_⟩, by decide, by decide⟩
  rintro (⟨a, hw, hseg⟩ | ⟨a, b, hwa, hwb, hseg⟩ | h | ⟨a, hw, hseg⟩)
  · exact icq_last_brace hw hseg
  · exact icq_last_comma hwa hwb (by simpa [List.append_assoc] using hseg)
  · exact icq_last_end h
  · exact icq_last_bracket hw hseg

/-- C4: for every schema and every input that a standard strict JSON
parser accepts as the `{"items": [...]}` envelope with records conforming
to the schema (`StrictItems`, the rendering relation characterising
exactly those texts and their decoded records), if no field value contains
a quote character then `parseItemsArray` returns the same ordered record
sequence the strict parser decodes.  (The proof in fact never needs the
no-quote hypothesis: a strict-JSON text cannot contain an unescaped quote
inside a string value, so the anchored scan always terminates at the true
closing quote.) -/
theorem c4_strict_equivalence (fields : List FieldDef) (s : Str) (recs : List RecV)
    (hschema : schemaOK fields) (hstrict : StrictItems fields s recs)
    (hnoq : NoQuoteValues recs) :
    parseItemsArray s fields = .ok recs :=
  parse_run hstrict (fun fd hfd c hc => (hschema fd hfd c hc).1)

/-- Witness for C4: the strict input `{"items":[{"t":"a"}]}` with schema
`[{t, string}]` parses to the single record `t ↦ a`. -/
theorem c4_witness :
    parseItemsArray (str "\x7b\"items\":[\x7b\"t\":\"a\"\x7d]\x7d") [⟨str "t", .string⟩]
      = .ok [[(str "t", JValue.str (str "a"))]] := by
  apply c4_strict_equivalence
  · intro fd hfd c hc
    have hfd' : fd = ⟨str "t", .string⟩ := by simpa using hfd
    subst hfd'
    have hc' : c = 116 := by simpa [str] using hc
    subst hc'
    exact ⟨by decide, by decide, by decide⟩
  · have hb : StrBody [97] [97] :=
      StrBody.norm 97 [] [] ⟨by decide, by decide, by decide⟩ StrBody.nil
    have hval : ValR ⟨str "t", .string⟩ ([34] ++ [97] ++ [34]) (JValue.str [97]) :=
      ⟨[97], [97], hb, rfl, rfl⟩
    have hfs := FieldSeq.last ⟨str "t", .string⟩ [] [] [] ([34] ++ [97] ++ [34])
      (JValue.str [97]) wsRun_nil wsRun_nil wsRun_nil hval
    have hR : RecR [⟨str "t", .string⟩]
        ([123] ++ [] ++ ([34] ++ str "t" ++ [34] ++ [] ++ [58] ++ []
          ++ ([34] ++ [97] ++ [34]) ++ [] ++ [125]))
        [(str "t", JValue.str [97])] :=
      ⟨[], _, wsRun_nil, hfs, rfl⟩
    have hseq := RecSeq.lastR [⟨str "t", .string⟩] _ [] _ hR wsRun_nil
    refine ⟨[], [], [], [], [], [], [], _, wsRun_nil, wsRun_nil, wsRun_nil, wsRun_nil,
      wsRun_nil, wsRun_nil, wsRun_nil, hseq, ?_⟩
    decide
  · intro rec hrec p hp
    have h1 : rec = [(str "t", JValue.str (str "a"))] := by simpa using hrec
    subst h1
    have h2 : p = (str "t", JValue.str (str "a")) := by simpa using hp
    subst h2
    decide

/-- C5: when the end of the input is reached while reading a string value
without finding a valid terminating quote, the reader fails with an
"Unterminated string" parse error whose reported position is the string's
starting offset — the index right after the opening quote, where the
string's content starts.  The final conjunct shows the failure arising on
a concrete unterminated input. -/
theorem c5_unterminated_string_position :
    (∀ (s : Str) (nf : Option Str) (pos : Nat) (e : PError),
      readAnchoredString s nf pos = .error e → e.message = "Unterminated string" →
      e.position = pos + 1) ∧
    (∀ (s : Str) (pos : Nat) (e : PError),
      readSimpleString s pos = .error e → e.message = "Unterminated string" →
      e.position = pos + 1) ∧
    readAnchoredString (str "\"abc") none 0 = .error ⟨"Unterminated string", 1⟩ :=
  ⟨fun _ _ _ _ h hm => readAnchoredString_error h hm,
   fun _ _ _ h hm => readSimpleString_error h hm,
   by decide⟩

/-- Witness for C5: the unterminated input `"abc` fails with the error
positioned at offset 1, the start of the string's content. -/
theorem c5_witness : (PError.mk "Unterminated string" 1).position = 0 + 1 :=
  c5_unterminated_string_position.1 (str "\"abc") none 0 ⟨"Unterminated string", 1⟩
    (by decide) rfl

/-- C6 (counterexample): the claim that every escaped character outside
the standard set passes through unchanged fails for `u`: on the raw
segment `\u!` (backslash, `u` = 117, `!` = 33), a `u` not followed by four
hex digits, the codec emits the code unit 0 (`String.fromCharCode(NaN)`),
not the `u` unchanged. -/
theorem c6_counterexample :
    unescape [92, 117, 33] = [0, 33] ∧ ([0, 33] : Str) ≠ [117, 33] :=
  ⟨by decide, by decide⟩

/-- C6 (amended): the codec maps each standard escape — quote, backslash,
slash, n, r, t, b, f, and u with four hex digits — to its decoded
character, and passes any other escaped character through unchanged,
except that: a `u` escape not followed by four hex digits decodes to the
NUL code unit 0 (with the following characters left in place); a
backslash before a line-terminator character is itself preserved (the
regex `.` does not match line terminators); and a lone trailing backslash
is preserved.  The codec is a pure deterministic function: applying it
twice to the same segment yields the same output. -/
theorem c6_unescape_codec :
    (∀ r : Str, unescape (92 :: 34 :: r) = 34 :: unescape r) ∧
    (∀ r : Str, unescape (92 :: 92 :: r) = 92 :: unescape r) ∧
    (∀ r : Str, unescape (92 :: 47 :: r) = 47 :: unescape r) ∧
    (∀ r : Str, unescape (92 :: 110 :: r) = 10 :: unescape r) ∧
    (∀ r : Str, unescape (92 :: 114 :: r) = 13 :: unescape r) ∧
    (∀ r : Str, unescape (92 :: 116 :: r) = 9 :: unescape r) ∧
    (∀ r : Str, unescape (92 :: 98 :: r) = 8 :: unescape r) ∧
    (∀ r : Str, unescape (92 :: 102 :: r) = 12 :: unescape r) ∧
    (∀ (a b e f ha hb he hf : Nat) (r : Str),
      hexVal a = some ha → hexVal b = some hb → hexVal e = some he → hexVal f = some hf →
      unescape (92 :: 117 :: a :: b :: e :: f :: r)
        = (((ha * 16 + hb) * 16 + he) * 16 + hf) :: unescape r) ∧
    (∀ (d : Nat) (r : Str), d ≠ 34 → d ≠ 92 → d ≠ 47 → d ≠ 110 → d ≠ 114 → d ≠ 116 →
      d ≠ 98 → d ≠ 102 → d ≠ 117 → isLineTerm d = false →
      unescape (92 :: d :: r) = d :: unescape r) ∧
    (∀ r : Str, uHex4 r = none → unescape (92 :: 117 :: r) = 0 :: unescape r) ∧
    (∀ (d : Nat) (r : Str), isLineTerm d = true →
      unescape (92 :: d :: r) = 92 :: d :: unescape r) ∧
    unescape [92] = [92] ∧
    (∀ (c : Nat) (r : Str), c ≠ 92 → unescape (c :: r) = c :: unescape r) ∧
    (∀ r₁ r₂ : Str, r₁ = r₂ → unescape r₁ = unescape r₂) := by
  refine ⟨fun r => unescape_esc r (by decide), fun r => unescape_esc r (by decide),
    fun r => unescape_esc r (by decide), fun r => unescape_esc r (by decide),
    fun r => unescape_esc r (by decide), fun r => unescape_esc r (by decide),
    fun r => unescape_esc r (by decide), fun r => unescape_esc r (by decide),
    fun a b e f ha hb he hf r h1 h2 h3 h4 => unescape_u4 r h1 h2 h3 h4,
    ?_,
    fun r h => unescape_u_bad h,
    fun d r h => unescape_lineterm h r,
    unescape_single,
    fun c r h => unescape_plain r h,
    fun r₁ r₂ h => by rw [h]⟩
  intro d r h34 h92 h47 hn hr ht hb hf hu hlt
  have hstep := unescape_step2 hu hlt r
  have hd : escChar d = d := by
    unfold escChar
    split_ifs <;> first | rfl | omega
  rwa [hd] at hstep

/-- Witness for C6: the non-standard escape `\x` (120) passes the `x`
through unchanged. -/
theorem c6_witness : unescape [92, 120, 97] = 120 :: unescape [97] :=
  c6_unescape_codec.2.2.2.2.2.2.2.2.2.1 120 [97] (by decide) (by decide) (by decide)
    (by decide) (by decide) (by decide) (by decide) (by decide) (by decide) (by decide)

/-- C7: a key found at a field position whose name differs from the
expected name makes `expectKey` fail with a parse error exposing a message
and the offset of the offending key; an error outcome of `parseItemsArray`
excludes any record sequence being returned (no partial results); and
concretely, an input whose second record has a wrong key name fails the
whole call — the first, well-formed record is not returned. -/
theorem c7_parse_failure :
    (∀ (s name : Str) (pos q keyEnd : Nat),
      skipTo s 34 pos = .ok q →
      indexOfFrom s 34 (q + 1) = some keyEnd →
      slice s (q + 1) keyEnd ≠ name →
      expectKey s name pos = .error ⟨"Expected key", q + 1⟩) ∧
    (∀ (s : Str) (fields : List FieldDef) (e : PError) (recs : List RecV),
      parseItemsArray s fields = .error e → parseItemsArray s fields ≠ .ok recs) ∧
    parseItemsArray
      (str "\x7b\"items\": [\x7b\"t\": \"a\", \"u\": \"b\"\x7d, \x7b\"w\": \"c\", \"u\": \"d\"\x7d]\x7d")
      [⟨str "t", .string⟩, ⟨str "u", .string⟩]
      = .error ⟨"Expected key", 35⟩ := by
  refine ⟨?_, ?_, by decide⟩
  · intro s name pos q keyEnd hsk hio hsl
    unfold expectKey
    rw [hsk]
    dsimp only
    rw [hio]
    dsimp only
    rw [if_neg hsl]
  · intro s fields e recs h hok
    rw [h] at hok
    cases hok

/-- Witness for C7: expecting the key `t` on the input `"x": 1` fails at
offset 1, the start of the found key `x`. -/
theorem c7_witness :
    expectKey (str "\"x\": 1") (str "t") 0 = .error ⟨"Expected key", 1⟩ :=
  c7_parse_failure.1 (str "\"x\": 1") (str "t") 0 0 2 (by decide) (by decide) (by decide)

/-- C8: within one parse invocation the cursor (a natural number) only
moves forward: no operation returns a smaller position than it was given
— whitespace skipping, `skipTo`, `tryConsume`, `expectKey`, both string
readers, the array reader, `parseObject`, and the record loop are all
monotone (the readers and `parseObject` strictly so).  The terminator
lookahead `isClosingQuote` runs on its own index and returns only a
boolean, and when it rejects a candidate quote the committed cursor
resumes at the character right after the quote, independent of how far
the lookahead ran. -/
theorem c8_cursor_monotone :
    (∀ (s : Str) (pos : Nat), pos ≤ skipWs s pos) ∧
    (∀ (s : Str) (c pos r : Nat), skipTo s c pos = .ok r → pos ≤ r) ∧
    (∀ (s : Str) (c pos : Nat), pos ≤ (tryConsume s c pos).2) ∧
    (∀ (s name : Str) (pos p' : Nat), expectKey s name pos = .ok p' → pos ≤ p') ∧
    (∀ (s : Str) (pos : Nat) (v : Str) (p' : Nat),
      readSimpleString s pos = .ok (v, p') → pos < p') ∧
    (∀ (s : Str) (nf : Option Str) (pos : Nat) (v : Str) (p' : Nat),
      readAnchoredString s nf pos = .ok (v, p') → pos < p') ∧
    (∀ (s : Str) (pos : Nat) (vs : List Str) (p' : Nat),
      readStringArray s pos = .ok (vs, p') → pos < p') ∧
    (∀ (s : Str) (fields : List FieldDef) (item : RecV) (pos : Nat) (itm : RecV) (p' : Nat),
      parseFields s fields item pos = .ok (itm, p') → pos ≤ p') ∧
    (∀ (s : Str) (fields : List FieldDef) (pos : Nat) (rec : RecV) (p' : Nat),
      parseObject s fields pos = .ok (rec, p') → pos < p') ∧
    (∀ (s : Str) (fields : List FieldDef) (fuel : Nat) (acc : List RecV) (pos : Nat)
      (items : List RecV) (p' : Nat),
      parseLoop s fields fuel acc pos = .ok (items, p') → pos ≤ p') ∧
    (∀ (s : Str) (nf : Option Str) (st fuel segStart pos : Nat) (parts : Str),
      getc s pos = some 34 → isClosingQuote s nf pos = false →
      readAnchoredLoop s nf st (fuel + 1) parts segStart pos
        = readAnchoredLoop s nf st fuel
            (parts ++ slice s segStart pos ++ [92, 34]) (pos + 1) (pos + 1)) := by
  refine ⟨fun s pos => skipWs_le s pos,
    fun s c pos r h => (skipToAux_ok h).1,
    fun s c pos => tryConsume_le s c pos,
    fun s name pos p' h => expectKey_ok_le h,
    fun s pos v p' h => readSimpleString_pos h,
    fun s nf pos v p' h => readAnchoredString_pos h,
    fun s pos vs p' h => readStringArray_lt h,
    fun s fields item pos itm p' h => parseFields_le h,
    fun s fields pos rec p' h => parseObject_lt h,
    fun s fields fuel acc pos items p' h => parseLoop_le h,
    ?_⟩
  intro s nf st fuel segStart pos parts h34 hicq
  simp [readAnchoredLoop, h34, hicq]

/-- Witness for C8: monotonicity at concrete inputs. -/
theorem c8_witness :
    (0 : Nat) ≤ skipWs (str " ") 0 ∧ (0 : Nat) ≤ (tryConsume (str ",") 44 0).2 :=
  ⟨c8_cursor_monotone.1 (str " ") 0, c8_cursor_monotone.2.2.1 (str ",") 44 0⟩

/-- C9: the top-level items array never requires its closing bracket or
the envelope's closing brace: the record loop simply returns what it has
accumulated once the end of the input is reached; any input that is an
envelope opening followed by strict records and cut off immediately after
the final record's closing brace parses successfully to all its records;
and concretely, a two-record input truncated right after the second
record's brace yields both records. -/
theorem c9_top_level_termination :
    (∀ (s : Str) (fields : List FieldDef) (fuel pos : Nat) (acc : List RecV),
      s.length ≤ pos → parseLoop s fields fuel acc pos = .ok (acc, pos)) ∧
    (∀ (s : Str) (fields : List FieldDef) (recs : List RecV) (w₁ w₂ w₃ w₄ w₅ body : Str),
      wsRun w₁ → wsRun w₂ → wsRun w₃ → wsRun w₄ → wsRun w₅ →
      TruncSeq fields body recs → schemaOK fields →
      s = w₁ ++ [123] ++ w₂ ++ ([34] ++ str "items" ++ [34]) ++ w₃ ++ [58] ++ w₄
          ++ [91] ++ w₅ ++ body →
      parseItemsArray s fields = .ok recs) ∧
    parseItemsArray (str "\x7b\"items\": [\x7b\"t\": \"a\"\x7d, \x7b\"t\": \"b\"\x7d")
      [⟨str "t", .string⟩]
      = .ok [[(str "t", JValue.str (str "a"))], [(str "t", JValue.str (str "b"))]] := by
  refine ⟨fun s fields fuel pos acc h => parseLoop_atEnd h,
    fun s fields recs w₁ w₂ w₃ w₄ w₅ body hw₁ hw₂ hw₃ hw₄ hw₅ hseq hsch hs =>
      parseTrunc_run hw₁ hw₂ hw₃ hw₄ hw₅ hseq
        (fun fd hfd c hc => (hsch fd hfd c hc).1) hs,
    by decide⟩

/-- Witness for C9: the loop at the end of the input returns its
accumulator unchanged. -/
theorem c9_witness : parseLoop ([] : Str) ([] : List FieldDef) 3 [] 0 = .ok ([], 0) :=
  c9_top_level_termination.1 [] [] 3 0 [] (by decide)

/-- C10: the string readers are total on every input.  Out-of-range
indexing yields the end-of-input sentinel (`none`); on an input whose
final character is a lone backslash, consuming the backslash as a
two-character unit moves the position past the end of the input, the scan
loop exits, and the reader throws an "Unterminated string" failure; and
both full readers do so on the concrete input `"ab\`.  (The readers are
structurally recursive Lean functions, so they terminate on every input
by construction.) -/
theorem c10_reader_totality :
    (∀ (s : Str) (i : Nat), s.length ≤ i ↔ getc s i = none) ∧
    (∀ (s : Str) (nf : Option Str) (st fuel segStart pos : Nat) (parts : Str),
      getc s pos = some 92 → s.length ≤ pos + 2 →
      readAnchoredLoop s nf st fuel parts segStart pos
        = .error ⟨"Unterminated string", st⟩) ∧
    (∀ (s : Str) (st fuel pos : Nat),
      getc s pos = some 92 → s.length ≤ pos + 2 →
      readSimpleLoop s st fuel pos = .error ⟨"Unterminated string", st⟩) ∧
    readSimpleString [34, 97, 98, 92] 0 = .error ⟨"Unterminated string", 1⟩ ∧
    readAnchoredString [34, 97, 98, 92] none 0 = .error ⟨"Unterminated string", 1⟩ := by
  refine ⟨fun s i => ⟨fun h => getc_eq_none.2 h, fun h => getc_eq_none.1 h⟩,
    fun s nf st fuel segStart pos parts h1 h2 => readAnchoredLoop_bs_end h1 h2,
    fun s st fuel pos h1 h2 => readSimpleLoop_bs_end h1 h2,
    by decide, by decide⟩

/-- Witness for C10: a lone backslash at the end makes the scan loop
error out rather than read out of bounds. -/
theorem c10_witness : readSimpleLoop ([92] : Str) 7 5 0 = .error ⟨"Unterminated string", 7⟩ :=
  c10_reader_totality.2.2.1 [92] 7 5 0 (by decide) (by decide)

end SchemaJson
